import Mathlib

namespace PartitionColumns
/-!
# PartitionColumns: chunk splitting and column partitioning

A shallow embedding of `src/util/PartitionColumns.cc`.

* `uint64_t` values are natural numbers below `UINT64_MOD`; arithmetic that can leave the
  range is reduced with `wrap64` / `sub64`.
* `int` values are natural numbers up to `INT_MAX` (the partition counts are asserted positive
  by `main`); the `int` expression `i * numPartitionsY + j` is reduced to 32 bits two's
  complement and then converted to `uint64_t` (`partitionId`).
* `vector` is `List`; an access outside the vector, or a division by zero, makes the function
  return `none`.
* `double` values are the type `Double`: a finite value is a rational, `⊤` is `+∞` and `⊥` is
  `-∞`; the coordinates of the mesh nodes are finite `double`s, each written as a rational
  that stands for the `double` nearest to it (`nearestDouble`). Every `double` operation of
  the source (`+=`, `/ 4.0`) is the exact operation followed by `roundDouble`, the rounding
  of IEEE 754 binary64 to nearest, ties to even, with gradual underflow and overflow to
  infinity.
* `std::sort` is a parameter `sort`, constrained only by the contract of the C++ standard
  (`SortContract`): the result is a permutation of the input, ordered for the comparator.
-/

/-! ## Machine arithmetic and vectors -/

/-- Number of `uint64_t` values. -/
def UINT64_MOD : Nat := 2 ^ 64

/-- Largest `int` value. -/
def INT_MAX : Nat := 2 ^ 31 - 1

/-- Number of `int` values. -/
def INT_MOD : Nat := 2 ^ 32

/-- Result of a `uint64_t` addition whose exact value is `n`. -/
def wrap64 (n : Nat) : Nat := n % UINT64_MOD

/-- The `uint64_t` subtraction `a - b` of two `uint64_t` values. -/
def sub64 (a b : Nat) : Nat := (a + UINT64_MOD - b) % UINT64_MOD

/-- The `uint64_t` division `a / b`; undefined for `b = 0`. -/
def div64 (a b : Nat) : Option Nat := if b = 0 then none else some (a / b)

/-- The `uint64_t` remainder `a % b`; undefined for `b = 0`. -/
def mod64 (a b : Nat) : Option Nat := if b = 0 then none else some (a % b)

/-- The assignment `v[i] = x`; undefined outside the vector. -/
def storeAt {α : Type} (v : List α) (i : Nat) (x : α) : Option (List α) :=
  if i < v.length then some (v.set i x) else none

/-! ## Double precision -/

/-- A `double` that is not a NaN: `⊥` is `-∞`, `⊤` is `+∞`, the other values are finite. -/
abbrev Double : Type := WithBot (WithTop ℚ)

/-- The finite `double` of value `q`. -/
def Double.ofRat (q : ℚ) : Double := ((q : WithTop ℚ) : WithBot (WithTop ℚ))

/-- Rounding to the nearest integer, ties to the even one. -/
def roundHalfEven (q : ℚ) : ℤ :=
  if q - ⌊q⌋ < 1 / 2 then ⌊q⌋
  else if 1 / 2 < q - ⌊q⌋ then ⌊q⌋ + 1
  else if ⌊q⌋ % 2 = 0 then ⌊q⌋ else ⌊q⌋ + 1

/-- Exponent of the unit in the last place of binary64 at `q`: 52 below the binary exponent
of `q`, and never below the subnormal spacing `2 ^ (-1074)`. -/
def ulpExponent (q : ℚ) : ℤ := max (Int.log 2 |q| - 52) (-1074)

/-- The `double` nearest to the exact value `q` (IEEE 754 binary64, round to nearest, ties to
even): `q` is rounded to a multiple of its unit in the last place, and a result of magnitude
`2 ^ 1024` or more is an infinity. -/
def roundDouble (q : ℚ) : Double :=
  let r : ℚ := (roundHalfEven (q / 2 ^ ulpExponent q) : ℚ) * 2 ^ ulpExponent q
  if (2 : ℚ) ^ (1024 : ℤ) ≤ |r| then (if 0 < q then ⊤ else ⊥) else Double.ofRat r

/-- The largest finite `double`, `(2 ^ 53 - 1) * 2 ^ 971`. -/
def maxDouble : ℚ := (2 ^ 53 - 1) * 2 ^ 971

/-- The value of the finite `double` that the rational `q` stands for in a node record: the
finite `double` nearest to `q`, which is `q` itself when `q` is the value of a `double`. -/
def nearestDouble (q : ℚ) : ℚ :=
  match roundDouble q with
  | none => -maxDouble
  | some none => maxDouble
  | some (some v) => v

/-- The `double` sum `a + x` of a `double` and a finite `double` of value `x`. -/
def addDouble (a : Double) (x : ℚ) : Double :=
  match a with
  | none => ⊥
  | some none => ⊤
  | some (some v) => roundDouble (v + x)

/-- The `double` quotient `a / 4.0`. -/
def div4Double (a : Double) : Double :=
  match a with
  | none => ⊥
  | some none => ⊤
  | some (some v) => roundDouble (v / 4)

/-- The value of `uint64_t part = i * numPartitionsY + j`, the right-hand side being an `int`
expression over non-negative operands. -/
def partitionId (i numPartitionsY j : Nat) : Nat :=
  let v := (i * numPartitionsY + j) % INT_MOD
  if v ≤ INT_MAX then v else v + (UINT64_MOD - INT_MOD)

/-! ## `splitIntoChunks` -/

/-- One iteration of the loop of `splitIntoChunks`:
`chunkIndices[i+1] = chunkIndices[i] + (size / numChunks);`
`if (i < (size % numChunks)) chunkIndices[i+1]++;` -/
def splitIntoChunksBody (size numChunks : Nat) (chunkIndices : List Nat) (i : Nat) :
    Option (List Nat) := do
  let prev ← chunkIndices[i]?
  let q ← div64 size numChunks
  let chunkIndices ← storeAt chunkIndices (i + 1) (wrap64 (prev + q))
  let r ← mod64 size numChunks
  if i < r then do
    let cur ← chunkIndices[i + 1]?
    storeAt chunkIndices (i + 1) (wrap64 (cur + 1))
  else
    pure chunkIndices

/-- The function `splitIntoChunks(size, numChunks)`: a vector of `numChunks + 1` entries
(the length is a `uint64_t` sum), entry `0` set to `0`, then the loop over
`i = 0 .. numChunks - 1`. -/
def splitIntoChunks (size numChunks : Nat) : Option (List Nat) := do
  let chunkIndices := List.replicate (wrap64 (numChunks + 1)) 0
  let chunkIndices ← storeAt chunkIndices 0 0
  (List.range numChunks).foldlM (splitIntoChunksBody size numChunks) chunkIndices

/-! ## Mesh data -/

/-- The struct `Centroid`: a cell index and the three `double` coordinates. -/
structure Centroid where
  cell : Nat
  coord : Fin 3 → Double

/-- Modelled from the spec: the node record of `SerialMesh.hh` (not among the sources), of
which `partitionMesh` reads `coords[0..2]`; the spec gives every node a 3-D coordinate, here
three finite `double`s: the rational `q` in a field stands for the `double` of value
`nearestDouble q`, which is `q` for every value a `double` can have. -/
structure NodeData where
  coords : Fin 3 → ℚ

/-- Modelled from the spec: the cell record of `SerialMesh.hh` (not among the sources), of
which `partitionMesh` reads `boundingNodes[0..3]`; the spec gives every cell exactly 4
bounding nodes. -/
structure CellData where
  boundingNodes : Fin 4 → Nat

/-- Modelled from the spec: the class `SerialMesh` of `SerialMesh.hh` (not among the
sources), restricted to the members `partitionMesh` reads: the cell count, the cells and the
nodes, with dense zero-based indices. -/
structure SerialMesh where
  c_numCells : Nat
  c_cellData : List CellData
  c_nodeData : List NodeData

/-- The comparator `compareX`. -/
def compareX (c1 c2 : Centroid) : Bool := decide (c1.coord 0 < c2.coord 0)

/-- The comparator `compareY`. -/
def compareY (c1 c2 : Centroid) : Bool := decide (c1.coord 1 < c2.coord 1)

/-- Type of a sorting routine standing for `std::sort` on a whole vector. -/
abbrev SortFn : Type := (Centroid → Centroid → Bool) → List Centroid → List Centroid

/-- The call `sort(v.begin() + first, v.begin() + last, comp)`; undefined unless
`first ≤ last ≤ v.size()`. -/
def sortRange (sort : SortFn) (comp : Centroid → Centroid → Bool) (v : List Centroid)
    (first last : Nat) : Option (List Centroid) :=
  if first ≤ last ∧ last ≤ v.length then
    some (v.take first ++ sort comp ((v.drop first).take (last - first)) ++ v.drop last)
  else none

/-! ## `partitionMesh` -/

/-- Body of the loop "Put centroids into vector" for one `cell`: each coordinate starts at
`0.0`, the coordinates of the 4 bounding nodes are added in order (`+=`), and the sum is
divided by `4.0`, all in `double`. -/
def cellCentroid (serialMesh : SerialMesh) (cell : Nat) : Option Centroid := do
  let cellData ← serialMesh.c_cellData[cell]?
  let sum ← ([0, 1, 2, 3] : List (Fin 4)).foldlM
    (fun (acc : Fin 3 → Double) vrtx => do
      let nodeData ← serialMesh.c_nodeData[cellData.boundingNodes vrtx]?
      pure (fun d => addDouble (acc d) (nearestDouble (nodeData.coords d))))
    (fun _ => Double.ofRat 0)
  pure { cell := cell, coord := fun d => div4Double (sum d) }

/-- What the loop "Set partitions" changes: the output vector, the lines printed (as triples
`(i, j, numInPartition)`), and the trace of the assignments `partitionVector[cell] = part`
(as pairs `(cell, part)`, in execution order). -/
structure AssignState where
  partitionVector : List Nat
  output : List (Nat × Nat × Nat)
  writes : List (Nat × Nat)

/-- State at the end of `partitionMesh`: the local variables `centroids`, `chunksX`,
`chunksY`, and the fields of `AssignState`. -/
structure PartitionState where
  centroids : List Centroid
  chunksX : List Nat
  chunksY : List (List Nat)
  partitionVector : List Nat
  output : List (Nat × Nat × Nat)
  writes : List (Nat × Nat)

/-- One iteration of the loop "Sort across y-axis in chunks", on the pair
`(centroids, chunksY)`. -/
def sortColumnsBody (sort : SortFn) (numPartitionsY : Nat) (chunksX : List Nat)
    (st : List Centroid × List (List Nat)) (i : Nat) :
    Option (List Centroid × List (List Nat)) := do
  let first ← chunksX[i]?
  let last ← chunksX[i + 1]?
  let centroids ← sortRange sort compareY st.1 first last
  let chunks ← splitIntoChunks (sub64 last first) numPartitionsY
  let chunksY ← storeAt st.2 i chunks
  pure (centroids, chunksY)

/-- One iteration of the innermost loop of "Set partitions":
`cell = centroids[indexBegin + k].cell; partitionVector[cell] = part;` -/
def setPartitionBody (centroids : List Centroid) (indexBegin part : Nat)
    (st : AssignState) (k : Nat) : Option AssignState := do
  let centroid ← centroids[wrap64 (indexBegin + k)]?
  let partitionVector ← storeAt st.partitionVector centroid.cell part
  pure { st with partitionVector := partitionVector,
                 writes := st.writes ++ [(centroid.cell, part)] }

/-- Body of the loops over `i` and `j` of "Set partitions" for one pair `(i, j)`. -/
def setPartitionsBody (numPartitionsY : Nat) (centroids : List Centroid)
    (chunksX : List Nat) (chunksY : List (List Nat)) (i : Nat)
    (st : AssignState) (j : Nat) : Option AssignState := do
  let part := partitionId i numPartitionsY j
  let chunks ← chunksY[i]?
  let hi ← chunks[j + 1]?
  let lo ← chunks[j]?
  let numInPartition := sub64 hi lo
  let xBegin ← chunksX[i]?
  let indexBegin := wrap64 (xBegin + lo)
  let st := if part < 100 then { st with output := st.output ++ [(i, j, numInPartition)] } else st
  (List.range numInPartition).foldlM (setPartitionBody centroids indexBegin part) st

/-- The function `partitionMesh(numPartitionsX, numPartitionsY, serialMesh, partitionVector)`
for non-negative partition counts. -/
def partitionMesh (sort : SortFn) (numPartitionsX numPartitionsY : Nat)
    (serialMesh : SerialMesh) (partitionVector : List Nat) : Option PartitionState := do
  let centroids ← (List.range serialMesh.c_numCells).mapM (cellCentroid serialMesh)
  let centroids := sort compareX centroids
  let chunksX ← splitIntoChunks centroids.length numPartitionsX
  let (centroids, chunksY) ← (List.range numPartitionsX).foldlM
    (sortColumnsBody sort numPartitionsY chunksX)
    (centroids, List.replicate numPartitionsX [])
  let st ← (List.range numPartitionsX).foldlM
    (fun st i => (List.range numPartitionsY).foldlM
      (setPartitionsBody numPartitionsY centroids chunksX chunksY i) st)
    { partitionVector := partitionVector, output := [], writes := [] }
  pure { centroids := centroids, chunksX := chunksX, chunksY := chunksY,
         partitionVector := st.partitionVector, output := st.output, writes := st.writes }

/-! ## Preconditions -/

/-- The requirement of the C++ standard on a comparator (Compare): irreflexive,
transitive, and with a transitive equivalence `!comp(a, b) && !comp(b, a)`. -/
def StrictWeakOrdering (comp : Centroid → Centroid → Bool) : Prop :=
  (∀ a, comp a a = false) ∧
  (∀ a b c, comp a b = true → comp b c = true → comp a c = true) ∧
  (∀ a b c, (comp a b = false ∧ comp b a = false) → (comp b c = false ∧ comp c b = false) →
    (comp a c = false ∧ comp c a = false))

/-- The contract of `std::sort`: for a strict weak ordering `comp` the result is a permutation
of the input in which no element is followed by one that `comp` puts before it. -/
structure SortContract (sort : SortFn) : Prop where
  perm : ∀ comp l, StrictWeakOrdering comp → (sort comp l).Perm l
  sorted : ∀ comp l, StrictWeakOrdering comp →
    (sort comp l).Pairwise (fun a b => comp b a = false)

/-- A valid mesh: the cell count is a `uint64_t`, `c_cellData` holds `c_numCells` cells, and
every bounding-node index of every cell is a valid node index. -/
def ValidMesh (serialMesh : SerialMesh) : Prop :=
  serialMesh.c_numCells < UINT64_MOD ∧
  serialMesh.c_cellData.length = serialMesh.c_numCells ∧
  ∀ cellData ∈ serialMesh.c_cellData, ∀ vrtx : Fin 4,
    cellData.boundingNodes vrtx < serialMesh.c_nodeData.length

/-! ## Closed forms used in the proofs -/

/-- Closed form of entry `i` of the boundary vector. -/
def chunkStart (size numChunks i : Nat) : Nat :=
  i * (size / numChunks) + min i (size % numChunks)

/-- Closed form of the boundary vector of `splitIntoChunks size numChunks`. -/
def chunkBounds (size numChunks : Nat) : List Nat :=
  (List.range (numChunks + 1)).map (chunkStart size numChunks)

/-- The elements of `l` at positions `first .. last - 1`. -/
def slice {α : Type} (l : List α) (first last : Nat) : List α :=
  (l.drop first).take (last - first)

/-- The vector `v` after the assignments `v[cell] = part` of the trace `ws`, in order. -/
def applyWrites (v : List Nat) (ws : List (Nat × Nat)) : List Nat :=
  ws.foldl (fun v w => v.set w.1 w.2) v

/-- The centroid vector before sorting, as a total function of the mesh. -/
def meshCentroids (serialMesh : SerialMesh) : List Centroid :=
  (List.range serialMesh.c_numCells).map
    (fun cell => (cellCentroid serialMesh cell).getD { cell := cell, coord := fun _ => 0 })

/-- The centroid vector after the sort by X. -/
def xSorted (sort : SortFn) (serialMesh : SerialMesh) : List Centroid :=
  sort compareX (meshCentroids serialMesh)

/-- Start of X-column `i` in the sorted centroid sequence `xs`. -/
def colStart (numPartitionsX : Nat) (xs : List Centroid) (i : Nat) : Nat :=
  chunkStart xs.length numPartitionsX i

/-- Number of centroids in X-column `i`. -/
def colSize (numPartitionsX : Nat) (xs : List Centroid) (i : Nat) : Nat :=
  colStart numPartitionsX xs (i + 1) - colStart numPartitionsX xs i

/-- The X-column `i` of `xs` after its sort by Y. -/
def sortedColumn (sort : SortFn) (numPartitionsX : Nat) (xs : List Centroid) (i : Nat) :
    List Centroid :=
  sort compareY (slice xs (colStart numPartitionsX xs i) (colStart numPartitionsX xs (i + 1)))

/-- The first `n` X-columns of `xs`, each sorted by Y, one after the other. -/
def sortedColumns (sort : SortFn) (numPartitionsX : Nat) (xs : List Centroid) (n : Nat) :
    List Centroid :=
  ((List.range n).map (sortedColumn sort numPartitionsX xs)).flatten

/-- The Y-row boundary vectors of the first `n` X-columns. -/
def rowBounds (numPartitionsX numPartitionsY : Nat) (xs : List Centroid) (n : Nat) :
    List (List Nat) :=
  (List.range n).map (fun i => chunkBounds (colSize numPartitionsX xs i) numPartitionsY)

/-- Start of Y-row `j` inside X-column `i`. -/
def rowStart (numPartitionsX numPartitionsY : Nat) (xs : List Centroid) (i j : Nat) : Nat :=
  chunkStart (colSize numPartitionsX xs i) numPartitionsY j

/-- Number of centroids in Y-row `j` of X-column `i`. -/
def rowSize (numPartitionsX numPartitionsY : Nat) (xs : List Centroid) (i j : Nat) : Nat :=
  rowStart numPartitionsX numPartitionsY xs i (j + 1) -
    rowStart numPartitionsX numPartitionsY xs i j

/-- The centroids of Y-row `j` of X-column `i`, in their final order. -/
def block (sort : SortFn) (numPartitionsX numPartitionsY : Nat) (xs : List Centroid)
    (i j : Nat) : List Centroid :=
  slice (sortedColumn sort numPartitionsX xs i)
    (rowStart numPartitionsX numPartitionsY xs i j)
    (rowStart numPartitionsX numPartitionsY xs i (j + 1))

/-- The assignments made for the pair `(i, j)`. -/
def blockWrites (sort : SortFn) (numPartitionsX numPartitionsY : Nat) (xs : List Centroid)
    (i j : Nat) : List (Nat × Nat) :=
  (block sort numPartitionsX numPartitionsY xs i j).map
    (fun c => (c.cell, partitionId i numPartitionsY j))

/-- The assignments made for X-column `i` and its first `n` rows. -/
def columnWrites (sort : SortFn) (numPartitionsX numPartitionsY : Nat) (xs : List Centroid)
    (i n : Nat) : List (Nat × Nat) :=
  ((List.range n).map (blockWrites sort numPartitionsX numPartitionsY xs i)).flatten

/-- The assignments made for the first `n` X-columns. -/
def allWrites (sort : SortFn) (numPartitionsX numPartitionsY : Nat) (xs : List Centroid)
    (n : Nat) : List (Nat × Nat) :=
  ((List.range n).map
    (fun i => columnWrites sort numPartitionsX numPartitionsY xs i numPartitionsY)).flatten

/-- The line printed for the pair `(i, j)`, if any. -/
def blockOutput (numPartitionsX numPartitionsY : Nat) (xs : List Centroid) (i j : Nat) :
    List (Nat × Nat × Nat) :=
  if partitionId i numPartitionsY j < 100 then
    [(i, j, rowStart numPartitionsX numPartitionsY xs i (j + 1) -
      rowStart numPartitionsX numPartitionsY xs i j)]
  else []

/-- The lines printed for X-column `i` and its first `n` rows. -/
def columnOutput (numPartitionsX numPartitionsY : Nat) (xs : List Centroid) (i n : Nat) :
    List (Nat × Nat × Nat) :=
  ((List.range n).map (blockOutput numPartitionsX numPartitionsY xs i)).flatten

/-- The lines printed for the first `n` X-columns. -/
def allOutput (numPartitionsX numPartitionsY : Nat) (xs : List Centroid) (n : Nat) :
    List (Nat × Nat × Nat) :=
  ((List.range n).map
    (fun i => columnOutput numPartitionsX numPartitionsY xs i numPartitionsY)).flatten

/-- Quotient of `n` by `d` rounded up. -/
def ceilDiv (n d : Nat) : Nat := (n + d - 1) / d

/-! ## Rank-based reference definition -/

/-- Reference: the number of cells whose centroid X-coordinate, as `partitionMesh` computes
it, is strictly smaller than that of `c`. -/
def rankX (serialMesh : SerialMesh) (c : Centroid) : Nat :=
  (meshCentroids serialMesh).countP (fun d => decide (d.coord 0 < c.coord 0))

/-- Reference: `c` is in X-column `i` when its rank by X lies in `[bx[i], bx[i+1])`. -/
def inRankColumn (serialMesh : SerialMesh) (bx : List Nat) (i : Nat) (c : Centroid) : Bool :=
  decide (bx.getD i 0 ≤ rankX serialMesh c ∧ rankX serialMesh c < bx.getD (i + 1) 0)

/-- Reference: the number of cells of X-column `i` whose centroid Y-coordinate, as
`partitionMesh` computes it, is strictly smaller than that of `c`. -/
def rankYInColumn (serialMesh : SerialMesh) (bx : List Nat) (i : Nat) (c : Centroid) : Nat :=
  (meshCentroids serialMesh).countP
    (fun d => inRankColumn serialMesh bx i d && decide (d.coord 1 < c.coord 1))

/-- Reference: `c` is in row `j` of X-column `i` when its rank by Y among the cells of that
column lies in `[by[j], by[j+1])`. -/
def inRankRow (serialMesh : SerialMesh) (bx rowBx : List Nat) (i j : Nat) (c : Centroid) :
    Bool :=
  decide (rowBx.getD j 0 ≤ rankYInColumn serialMesh bx i c ∧
    rankYInColumn serialMesh bx i c < rowBx.getD (j + 1) 0)

/-! ## Exact arithmetic means -/

/-- The spec's centroid, in exact arithmetic: the sum of coordinate `d` of the 4 bounding
nodes of `cell`, divided by 4. -/
def meanCoord (serialMesh : SerialMesh) (cell : Nat) (d : Fin 3) : Option ℚ := do
  let cellData ← serialMesh.c_cellData[cell]?
  let n0 ← serialMesh.c_nodeData[cellData.boundingNodes 0]?
  let n1 ← serialMesh.c_nodeData[cellData.boundingNodes 1]?
  let n2 ← serialMesh.c_nodeData[cellData.boundingNodes 2]?
  let n3 ← serialMesh.c_nodeData[cellData.boundingNodes 3]?
  pure ((n0.coords d + n1.coords d + n2.coords d + n3.coords d) / 4)

/-- The number of cells whose exact mean X-coordinate is strictly smaller than that of
`cell`. -/
def meanRankX (serialMesh : SerialMesh) (cell : Nat) : Nat :=
  (List.range serialMesh.c_numCells).countP (fun other =>
    match meanCoord serialMesh other 0, meanCoord serialMesh cell 0 with
    | some x, some y => decide (x < y)
    | _, _ => false)

/-! ## Concrete inputs -/

/-- A sorting routine meeting `SortContract`, used to run the model. -/
def insertionSort : SortFn :=
  fun comp l => List.insertionSort (fun a b => comp b a = false) l

/-- A degenerate cell whose 4 bounding nodes are all `node`. -/
def pointCell (node : Nat) : CellData := { boundingNodes := fun _ => node }

/-- A mesh of 8 cells whose centroids are the 8 corners of the unit cube. -/
def cubeMesh : SerialMesh where
  c_numCells := 8
  c_cellData := (List.range 8).map pointCell
  c_nodeData := [⟨![0, 0, 0]⟩, ⟨![1, 0, 0]⟩, ⟨![0, 1, 0]⟩, ⟨![1, 1, 0]⟩,
                 ⟨![0, 0, 1]⟩, ⟨![1, 0, 1]⟩, ⟨![0, 1, 1]⟩, ⟨![1, 1, 1]⟩]

/-- A mesh of 10 cells whose centroids are the points `(k, 0, 0)`, `k = 0 .. 9`. -/
def lineMesh : SerialMesh where
  c_numCells := 10
  c_cellData := (List.range 10).map pointCell
  c_nodeData := (List.range 10).map (fun k => ⟨![(k : ℚ), 0, 0]⟩)

/-- The mesh without cells. -/
def emptyMesh : SerialMesh where
  c_numCells := 0
  c_cellData := []
  c_nodeData := []

/-- A mesh of 2 cells on which the `double` sums round: the X-coordinates of the bounding
nodes are `2^53, 1, 1, 1` for cell 0 and `2^53 + 2, 0, 0, 0` for cell 1, the Y-coordinates
`0, 0, 0, 0` and `4, 0, 0, 0`. -/
def roundingMesh : SerialMesh where
  c_numCells := 2
  c_cellData := [⟨![0, 1, 1, 1]⟩, ⟨![2, 3, 3, 3]⟩]
  c_nodeData := [⟨![2 ^ 53, 0, 0]⟩, ⟨![1, 0, 0]⟩, ⟨![2 ^ 53 + 2, 4, 0]⟩, ⟨![0, 0, 0]⟩]

theorem foldlM_range_inv {σ : Type} (f : σ → Nat → Option σ) (Inv : Nat → σ → Prop)
    (n : Nat) (s0 : σ) (h0 : Inv 0 s0)
    (hstep : ∀ i s, i < n → Inv i s → ∃ s', f s i = some s' ∧ Inv (i + 1) s') :
    ∃ s', (List.range n).foldlM f s0 = some s' ∧ Inv n s' := by
  induction n with
  | zero => exact ⟨s0, by simp, h0⟩
  | succ k ih =>
    obtain ⟨s1, h1, hI1⟩ := ih (fun i s hi hI => hstep i s (Nat.lt_succ_of_lt hi) hI)
    obtain ⟨s2, h2, hI2⟩ := hstep k s1 (Nat.lt_succ_self k) hI1
    refine ⟨s2, ?_, hI2⟩
    rw [List.range_succ, List.foldlM_append, h1]
    simp [h2]

theorem wrap64_of_lt {n : Nat} (h : n < UINT64_MOD) : wrap64 n = n :=
  Nat.mod_eq_of_lt h

theorem sub64_of_le {a b : Nat} (hab : b ≤ a) (ha : a < UINT64_MOD) : sub64 a b = a - b := by
  unfold sub64
  have : a + UINT64_MOD - b = (a - b) + UINT64_MOD := by omega
  rw [this, Nat.add_mod_right]
  exact Nat.mod_eq_of_lt (by omega)

theorem chunkStart_zero (size n : Nat) : chunkStart size n 0 = 0 := by
  simp [chunkStart]

theorem chunkStart_succ (size n i : Nat) :
    chunkStart size n (i + 1) =
      chunkStart size n i + size / n + (if i < size % n then 1 else 0) := by
  unfold chunkStart
  split_ifs with h
  · rw [Nat.min_eq_left (by omega : i + 1 ≤ size % n), Nat.min_eq_left (by omega : i ≤ size % n)]
    ring
  · rw [Nat.min_eq_right (by omega : size % n ≤ i + 1), Nat.min_eq_right (by omega : size % n ≤ i)]
    ring

theorem chunkStart_last (size n : Nat) (hn : 0 < n) : chunkStart size n n = size := by
  unfold chunkStart
  rw [Nat.min_eq_right (Nat.le_of_lt (Nat.mod_lt _ hn))]
  exact Nat.div_add_mod size n

theorem chunkStart_mono (size n : Nat) {i j : Nat} (h : i ≤ j) :
    chunkStart size n i ≤ chunkStart size n j := by
  unfold chunkStart
  have h1 : i * (size / n) ≤ j * (size / n) := Nat.mul_le_mul_right _ h
  have h2 : min i (size % n) ≤ min j (size % n) := by omega
  omega

theorem chunkStart_le_size (size n : Nat) (hn : 0 < n) {i : Nat} (h : i ≤ n) :
    chunkStart size n i ≤ size := by
  have := chunkStart_mono size n h
  rwa [chunkStart_last size n hn] at this

theorem chunkBounds_length (size n : Nat) : (chunkBounds size n).length = n + 1 := by
  simp [chunkBounds]

theorem chunkBounds_getElem? (size n : Nat) {i : Nat} (h : i ≤ n) :
    (chunkBounds size n)[i]? = some (chunkStart size n i) := by
  unfold chunkBounds
  rw [List.getElem?_map, List.getElem?_range (by omega)]
  rfl

theorem splitIntoChunksBody_step (size n : Nat) (hsize : size < UINT64_MOD) (v : List Nat)
    (i : Nat) (hi : i < n) (hlen : v.length = n + 1)
    (hv : ∀ t, t ≤ i → v[t]? = some (chunkStart size n t)) :
    ∃ v', splitIntoChunksBody size n v i = some v' ∧ v'.length = n + 1 ∧
      ∀ t, t ≤ i + 1 → v'[t]? = some (chunkStart size n t) := by
  have hn : n ≠ 0 := by omega
  have hle : chunkStart size n (i + 1) ≤ size := chunkStart_le_size size n (by omega) hi
  have hsucc := chunkStart_succ size n i
  have hq : wrap64 (chunkStart size n i + size / n) = chunkStart size n i + size / n :=
    wrap64_of_lt (by omega)
  by_cases hr : i < size % n
  · refine ⟨(v.set (i + 1) (chunkStart size n i + size / n)).set (i + 1)
      (chunkStart size n (i + 1)), ?_, by simp [hlen], ?_⟩
    · have hw : wrap64 (chunkStart size n i + size / n + 1) = chunkStart size n (i + 1) := by
        rw [hsucc, if_pos hr]; exact wrap64_of_lt (by rw [hsucc, if_pos hr] at hle; omega)
      simp [splitIntoChunksBody, hv i (le_refl i), div64, mod64, hn, storeAt, hlen, hi, hq, hr, hw]
    · intro t ht
      rcases Nat.lt_or_ge t (i + 1) with h | h
      · rw [List.getElem?_set_ne (by omega), List.getElem?_set_ne (by omega)]
        exact hv t (by omega)
      · have : t = i + 1 := by omega
        subst this
        simp [hlen, hi]
  · refine ⟨v.set (i + 1) (chunkStart size n i + size / n), ?_, by simp [hlen], ?_⟩
    · simp [splitIntoChunksBody, hv i (le_refl i), div64, mod64, hn, storeAt, hlen, hi, hq, hr]
    · intro t ht
      rcases Nat.lt_or_ge t (i + 1) with h | h
      · rw [List.getElem?_set_ne (by omega)]
        exact hv t (by omega)
      · have : t = i + 1 := by omega
        subst this
        rw [hsucc, if_neg hr]
        simp [hlen, hi]

theorem splitIntoChunks_eq (size n : Nat) (hsize : size < UINT64_MOD)
    (hn : n + 1 < UINT64_MOD) : splitIntoChunks size n = some (chunkBounds size n) := by
  have hw : wrap64 (n + 1) = n + 1 := wrap64_of_lt hn
  obtain ⟨v, hv, hlen, hget⟩ := foldlM_range_inv (splitIntoChunksBody size n)
    (fun k v => v.length = n + 1 ∧ ∀ t, t ≤ k → v[t]? = some (chunkStart size n t)) n
    (List.replicate (n + 1) 0)
    ⟨by simp, fun t ht => by
      have : t = 0 := by omega
      subst this
      simp [chunkStart_zero]⟩
    (fun i s hi hI => splitIntoChunksBody_step size n hsize s i hi hI.1 hI.2)
  have hvb : v = chunkBounds size n := by
    apply List.ext_getElem?
    intro t
    rcases Nat.lt_or_ge n t with h | h
    · rw [List.getElem?_eq_none (by omega), List.getElem?_eq_none
        (by rw [chunkBounds_length]; omega)]
    · rw [hget t h, chunkBounds_getElem? size n h]
  simp [splitIntoChunks, hw, storeAt, hv, hvb]

theorem splitIntoChunks_wrapped (size n : Nat) (hn : n + 1 = UINT64_MOD) :
    splitIntoChunks size n = none := by
  have hw : wrap64 (n + 1) = 0 := by simp [wrap64, hn]
  simp [splitIntoChunks, hw, storeAt]

theorem splitIntoChunks_zero (size : Nat) : splitIntoChunks size 0 = some [0] := by
  simp [splitIntoChunks, wrap64, UINT64_MOD, storeAt]

/-! ### Lists: slices, monadic maps, write traces -/

theorem slice_length {α : Type} (l : List α) {b e : Nat} (he : e ≤ l.length) :
    (slice l b e).length = e - b := by
  simp [slice]; omega

theorem slice_getElem? {α : Type} (l : List α) (b e k : Nat) (hk : k < e - b) :
    (slice l b e)[k]? = l[b + k]? := by
  simp [slice, List.getElem?_take, hk]

theorem take_append_slice {α : Type} (l : List α) {b e : Nat} (hbe : b ≤ e) :
    l.take b ++ slice l b e = l.take e := by
  unfold slice
  have : e = b + (e - b) := by omega
  conv_rhs => rw [this, List.take_add]

theorem mem_slice {α : Type} (l : List α) (b e : Nat) (x : α) (hx : x ∈ slice l b e) :
    ∃ p, b ≤ p ∧ p < e ∧ l[p]? = some x := by
  obtain ⟨k, hk, hget⟩ := List.getElem_of_mem hx
  have hk2 : k < e - b := by
    have : (slice l b e).length ≤ e - b := by simp [slice]
    omega
  refine ⟨b + k, by omega, by omega, ?_⟩
  rw [← slice_getElem? l b e k hk2, List.getElem?_eq_getElem hk, hget]

theorem mapM_option_eq_some {α β : Type} (f : α → Option β) (g : α → β) (l : List α)
    (h : ∀ x ∈ l, f x = some (g x)) : l.mapM f = some (l.map g) := by
  induction l with
  | nil => rfl
  | cons a t ih =>
    have ha := h a (List.mem_cons_self a t)
    have ht := ih (fun x hx => h x (List.mem_cons_of_mem a hx))
    rw [List.mapM_cons, ha, ht]
    rfl

theorem applyWrites_length (ws : List (Nat × Nat)) (v : List Nat) :
    (applyWrites v ws).length = v.length := by
  induction ws generalizing v with
  | nil => rfl
  | cons w t ih => simp [applyWrites] at ih ⊢; rw [ih]; simp

theorem applyWrites_append (v : List Nat) (ws ws' : List (Nat × Nat)) :
    applyWrites v (ws ++ ws') = applyWrites (applyWrites v ws) ws' := by
  simp [applyWrites]

theorem applyWrites_getElem?_of_not_mem (ws : List (Nat × Nat)) (v : List Nat) (c : Nat)
    (hc : c ∉ ws.map Prod.fst) : (applyWrites v ws)[c]? = v[c]? := by
  induction ws generalizing v with
  | nil => rfl
  | cons w t ih =>
    simp only [List.map_cons, List.mem_cons, not_or] at hc
    have := ih (v.set w.1 w.2) hc.2
    simp only [applyWrites, List.foldl_cons] at this ⊢
    rw [this, List.getElem?_set_ne (fun h => hc.1 h.symm)]

theorem applyWrites_getElem?_of_mem (ws : List (Nat × Nat)) (v : List Nat) (c p : Nat)
    (hnd : (ws.map Prod.fst).Nodup) (hmem : (c, p) ∈ ws) (hc : c < v.length) :
    (applyWrites v ws)[c]? = some p := by
  induction ws generalizing v with
  | nil => simp at hmem
  | cons w t ih =>
    simp only [List.map_cons, List.nodup_cons] at hnd
    simp only [applyWrites, List.foldl_cons]
    rcases List.mem_cons.mp hmem with h | h
    · subst h
      have := applyWrites_getElem?_of_not_mem t (v.set c p) c hnd.1
      simp only [applyWrites] at this
      rw [this]
      simp [hc]
    · exact ih (v.set w.1 w.2) hnd.2 h (by simpa using hc)

theorem applyWrites_perm (ws : List (Nat × Nat)) (v : List Nat)
    (hperm : (ws.map Prod.fst).Perm (List.range v.length)) :
    (applyWrites v ws).Perm (ws.map Prod.snd) := by
  have hnd : (ws.map Prod.fst).Nodup := hperm.nodup_iff.mpr (List.nodup_range _)
  set r := applyWrites v ws with hr
  have hlen : r.length = v.length := applyWrites_length ws v
  have h1 : r = (List.range v.length).map (fun c => r.getD c 0) := by
    apply List.ext_getElem?
    intro c
    rcases Nat.lt_or_ge c v.length with h | h
    · rw [List.getElem?_map, List.getElem?_range h]
      simp [List.getD_eq_getElem?_getD, List.getElem?_eq_getElem (hlen ▸ h)]
    · rw [List.getElem?_eq_none (by omega), List.getElem?_eq_none (by simp; omega)]
  have h2 : ws.map Prod.snd = (ws.map Prod.fst).map (fun c => r.getD c 0) := by
    rw [List.map_map]
    apply List.map_congr_left
    intro w hw
    have hc : w.1 < v.length := by
      have : w.1 ∈ List.range v.length :=
        hperm.subset (List.mem_map_of_mem Prod.fst hw)
      simpa using this
    have := applyWrites_getElem?_of_mem ws v w.1 w.2 hnd hw hc
    simp [List.getD_eq_getElem?_getD, ← hr, this]
  rw [h2]
  conv_lhs => rw [h1]
  exact (hperm.map _).symm

/-! ### Comparators and the sort contract -/

theorem compareX_strictWeak : StrictWeakOrdering compareX := by
  refine ⟨fun a => by simp [compareX], fun a b c hab hbc => ?_, fun a b c hab hbc => ?_⟩
  · simp only [compareX, decide_eq_true_eq] at *
    exact lt_trans hab hbc
  · simp only [compareX, decide_eq_false_iff_not, not_lt] at *
    exact ⟨le_trans hbc.1 hab.1, le_trans hab.2 hbc.2⟩

theorem compareY_strictWeak : StrictWeakOrdering compareY := by
  refine ⟨fun a => by simp [compareY], fun a b c hab hbc => ?_, fun a b c hab hbc => ?_⟩
  · simp only [compareY, decide_eq_true_eq] at *
    exact lt_trans hab hbc
  · simp only [compareY, decide_eq_false_iff_not, not_lt] at *
    exact ⟨le_trans hbc.1 hab.1, le_trans hab.2 hbc.2⟩

theorem StrictWeakOrdering.total {comp : Centroid → Centroid → Bool}
    (h : StrictWeakOrdering comp) (a b : Centroid) : comp b a = false ∨ comp a b = false := by
  by_contra hcon
  simp only [not_or, Bool.not_eq_false] at hcon
  have := h.2.1 a b a hcon.2 hcon.1
  rw [h.1 a] at this
  exact Bool.false_ne_true this

theorem StrictWeakOrdering.negTrans {comp : Centroid → Centroid → Bool}
    (h : StrictWeakOrdering comp) (a b c : Centroid) (hba : comp b a = false)
    (hcb : comp c b = false) : comp c a = false := by
  by_contra hca
  simp only [Bool.not_eq_false] at hca
  have hab : comp a b = false := by
    by_contra hab
    simp only [Bool.not_eq_false] at hab
    have := h.2.1 c a b hca hab
    rw [hcb] at this
    exact Bool.false_ne_true this
  have hbc : comp b c = false := by
    by_contra hbc
    simp only [Bool.not_eq_false] at hbc
    have := h.2.1 b c a hbc hca
    rw [hba] at this
    exact Bool.false_ne_true this
  have := (h.2.2 a b c ⟨hab, hba⟩ ⟨hbc, hcb⟩).2
  rw [hca] at this
  exact Bool.false_ne_true this.symm

theorem insertionSort_contract : SortContract insertionSort := by
  refine ⟨fun comp l _ => List.perm_insertionSort _ l, fun comp l h => ?_⟩
  exact @List.sorted_insertionSort Centroid (fun a b => comp b a = false) _
    ⟨fun a b => h.total a b⟩ ⟨fun a b c hab hbc => h.negTrans a b c hab hbc⟩ l

/-! ### Centroid extraction -/

theorem cellCentroid_cell (m : SerialMesh) (c : Nat) (ce : Centroid)
    (h : cellCentroid m c = some ce) : ce.cell = c := by
  unfold cellCentroid at h
  simp only [Option.bind_eq_bind, Option.bind_eq_some, Option.pure_def, Option.some.injEq] at h
  obtain ⟨_, _, _, _, rfl⟩ := h
  rfl

theorem cellCentroid_isSome (m : SerialMesh) (hm : ValidMesh m) (c : Nat)
    (hc : c < m.c_numCells) : ∃ ce, cellCentroid m c = some ce := by
  obtain ⟨_, hlen, hnodes⟩ := hm
  have hc2 : c < m.c_cellData.length := by omega
  obtain ⟨cd, hcd⟩ : ∃ cd, m.c_cellData[c]? = some cd :=
    ⟨_, List.getElem?_eq_getElem hc2⟩
  have hmem : cd ∈ m.c_cellData := List.mem_iff_getElem?.mpr ⟨c, hcd⟩
  have hn : ∀ v : Fin 4, ∃ nd, m.c_nodeData[cd.boundingNodes v]? = some nd :=
    fun v => ⟨_, List.getElem?_eq_getElem (hnodes cd hmem v)⟩
  obtain ⟨n0, h0⟩ := hn 0
  obtain ⟨n1, h1⟩ := hn 1
  obtain ⟨n2, h2⟩ := hn 2
  obtain ⟨n3, h3⟩ := hn 3
  simp [cellCentroid, hcd, h0, h1, h2, h3, List.foldlM]

theorem meshCentroids_length (m : SerialMesh) : (meshCentroids m).length = m.c_numCells := by
  simp [meshCentroids]

theorem meshCentroids_cells (m : SerialMesh) (hm : ValidMesh m) :
    (meshCentroids m).map Centroid.cell = List.range m.c_numCells := by
  unfold meshCentroids
  rw [List.map_map]
  conv_rhs => rw [← List.map_id (List.range m.c_numCells)]
  apply List.map_congr_left
  intro c hc
  obtain ⟨ce, hce⟩ := cellCentroid_isSome m hm c (by simpa using hc)
  simp [hce, cellCentroid_cell m c ce hce]

theorem mapM_cellCentroid (m : SerialMesh) (hm : ValidMesh m) :
    (List.range m.c_numCells).mapM (cellCentroid m) = some (meshCentroids m) := by
  apply mapM_option_eq_some
  intro c hc
  obtain ⟨ce, hce⟩ := cellCentroid_isSome m hm c (by simpa using hc)
  simp [hce]

theorem meshCentroids_getElem? (m : SerialMesh) (hm : ValidMesh m) (c : Nat)
    (hc : c < m.c_numCells) : (meshCentroids m)[c]? = cellCentroid m c := by
  obtain ⟨ce, hce⟩ := cellCentroid_isSome m hm c hc
  simp [meshCentroids, List.getElem?_range hc, hce]

/-! ### Columns of the X-sorted sequence -/

theorem colStart_mono (px : Nat) (xs : List Centroid) {i j : Nat} (h : i ≤ j) :
    colStart px xs i ≤ colStart px xs j :=
  chunkStart_mono _ _ h

theorem colStart_le (px : Nat) (xs : List Centroid) (hpx : 0 < px) {i : Nat} (h : i ≤ px) :
    colStart px xs i ≤ xs.length :=
  chunkStart_le_size _ _ hpx h

theorem colStart_last (px : Nat) (xs : List Centroid) (hpx : 0 < px) :
    colStart px xs px = xs.length :=
  chunkStart_last _ _ hpx

theorem colStart_add_colSize (px : Nat) (xs : List Centroid) (i : Nat) :
    colStart px xs i + colSize px xs i = colStart px xs (i + 1) := by
  have := colStart_mono px xs (Nat.le_add_right i 1)
  unfold colSize
  omega

theorem sortedColumn_perm (sort : SortFn) (hs : SortContract sort) (px : Nat)
    (xs : List Centroid) (i : Nat) :
    (sortedColumn sort px xs i).Perm (slice xs (colStart px xs i) (colStart px xs (i + 1))) :=
  hs.perm _ _ compareY_strictWeak

theorem sortedColumn_length (sort : SortFn) (hs : SortContract sort) (px : Nat)
    (xs : List Centroid) (hpx : 0 < px) {i : Nat} (hi : i < px) :
    (sortedColumn sort px xs i).length = colSize px xs i := by
  rw [(sortedColumn_perm sort hs px xs i).length_eq, slice_length xs (colStart_le px xs hpx hi)]
  rfl

theorem sortedColumns_succ (sort : SortFn) (px : Nat) (xs : List Centroid) (n : Nat) :
    sortedColumns sort px xs (n + 1) = sortedColumns sort px xs n ++ sortedColumn sort px xs n := by
  simp [sortedColumns, List.range_succ]

theorem sortedColumns_length (sort : SortFn) (hs : SortContract sort) (px : Nat)
    (xs : List Centroid) (hpx : 0 < px) {n : Nat} (hn : n ≤ px) :
    (sortedColumns sort px xs n).length = colStart px xs n := by
  induction n with
  | zero => simp [sortedColumns, colStart, chunkStart_zero]
  | succ k ih =>
    rw [sortedColumns_succ, List.length_append, ih (by omega),
      sortedColumn_length sort hs px xs hpx (by omega), colStart_add_colSize]

theorem sortedColumns_perm (sort : SortFn) (hs : SortContract sort) (px : Nat)
    (xs : List Centroid) (n : Nat) :
    (sortedColumns sort px xs n).Perm (xs.take (colStart px xs n)) := by
  induction n with
  | zero => simp [sortedColumns, colStart, chunkStart_zero]
  | succ k ih =>
    rw [sortedColumns_succ, ← take_append_slice xs (colStart_mono px xs (Nat.le_add_right k 1))]
    exact ih.append (sortedColumn_perm sort hs px xs k)

theorem sortedColumns_perm_all (sort : SortFn) (hs : SortContract sort) (px : Nat)
    (xs : List Centroid) (hpx : 0 < px) : (sortedColumns sort px xs px).Perm xs := by
  have := sortedColumns_perm sort hs px xs px
  rwa [colStart_last px xs hpx, List.take_length] at this

theorem sortedColumns_split (sort : SortFn) (px : Nat) (xs : List Centroid) (i n : Nat)
    (h : i < n) : ∃ R, sortedColumns sort px xs n =
      sortedColumns sort px xs i ++ (sortedColumn sort px xs i ++ R) := by
  induction n with
  | zero => omega
  | succ k ih =>
    rcases Nat.lt_or_ge i k with hik | hik
    · obtain ⟨R, hR⟩ := ih hik
      exact ⟨R ++ sortedColumn sort px xs k, by rw [sortedColumns_succ, hR]; simp⟩
    · have : i = k := by omega
      subst this
      exact ⟨[], by rw [sortedColumns_succ]; simp⟩

theorem sortedColumns_getElem? (sort : SortFn) (hs : SortContract sort) (px : Nat)
    (xs : List Centroid) (hpx : 0 < px) {i p : Nat} (hi : i < px)
    (hp : p < colSize px xs i) :
    (sortedColumns sort px xs px)[colStart px xs i + p]? = (sortedColumn sort px xs i)[p]? := by
  obtain ⟨R, hR⟩ := sortedColumns_split sort px xs i px hi
  have hlen := sortedColumns_length sort hs px xs hpx (Nat.le_of_lt hi)
  have hlen2 := sortedColumn_length sort hs px xs hpx hi
  rw [hR, List.getElem?_append_right (by omega), hlen, Nat.add_sub_cancel_left,
    List.getElem?_append_left (by omega)]

/-! ### The column-sorting loop -/

theorem sortRange_column (sort : SortFn) (xs A : List Centroid) (b e : Nat)
    (hA : A.length = b) (hbe : b ≤ e) (he : e ≤ xs.length) :
    sortRange sort compareY (A ++ xs.drop b) b e =
      some ((A ++ sort compareY (slice xs b e)) ++ xs.drop e) := by
  have hlen : e ≤ (A ++ xs.drop b).length := by simp; omega
  have h1 : (A ++ xs.drop b).take b = A := List.take_left' hA
  have h2 : (A ++ xs.drop b).drop b = xs.drop b := List.drop_left' hA
  have h3 : (A ++ xs.drop b).drop e = xs.drop e := by
    have : e = b + (e - b) := by omega
    rw [this, ← List.drop_drop, h2, List.drop_drop]
  simp only [sortRange, hbe, hlen, and_self, if_true, h1, h2, h3]
  rfl

theorem sortColumnsBody_step (sort : SortFn) (hs : SortContract sort) (px py : Nat)
    (xs : List Centroid) (hpx : 0 < px) (hpy : py + 1 < UINT64_MOD)
    (hN : xs.length < UINT64_MOD) (st : List Centroid × List (List Nat)) (i : Nat)
    (hi : i < px)
    (h1 : st.1 = sortedColumns sort px xs i ++ xs.drop (colStart px xs i))
    (h2 : st.2.length = px)
    (h3 : ∀ t, t < i → st.2[t]? = some (chunkBounds (colSize px xs t) py)) :
    ∃ st', sortColumnsBody sort py (chunkBounds xs.length px) st i = some st' ∧
      st'.1 = sortedColumns sort px xs (i + 1) ++ xs.drop (colStart px xs (i + 1)) ∧
      st'.2.length = px ∧
      ∀ t, t < i + 1 → st'.2[t]? = some (chunkBounds (colSize px xs t) py) := by
  have hb : (chunkBounds xs.length px)[i]? = some (colStart px xs i) :=
    chunkBounds_getElem? _ _ (by omega)
  have he : (chunkBounds xs.length px)[i + 1]? = some (colStart px xs (i + 1)) :=
    chunkBounds_getElem? _ _ (by omega)
  have hmono := colStart_mono px xs (Nat.le_add_right i 1)
  have hle : colStart px xs (i + 1) ≤ xs.length := colStart_le px xs hpx (by omega)
  have hsort := sortRange_column sort xs (sortedColumns sort px xs i) _ _
    (sortedColumns_length sort hs px xs hpx (Nat.le_of_lt hi)) hmono hle
  have hsub : sub64 (colStart px xs (i + 1)) (colStart px xs i) = colSize px xs i :=
    sub64_of_le hmono (by omega)
  have hsplit : splitIntoChunks (colSize px xs i) py = some (chunkBounds (colSize px xs i) py) :=
    splitIntoChunks_eq _ _ (by unfold colSize; omega) hpy
  refine ⟨(sortedColumns sort px xs (i + 1) ++ xs.drop (colStart px xs (i + 1)),
    st.2.set i (chunkBounds (colSize px xs i) py)), ?_, rfl, by simp [h2], ?_⟩
  · simp [sortColumnsBody, hb, he, h1, hsort, hsub, hsplit, storeAt, h2, hi, sortedColumns_succ,
      sortedColumn]
  · intro t ht
    rcases Nat.lt_or_ge t i with h | h
    · simp only []
      rw [List.getElem?_set_ne (by omega)]
      exact h3 t h
    · have : t = i := by omega
      subst this
      simp [h2, hi]

theorem sortColumns_eq (sort : SortFn) (hs : SortContract sort) (px py : Nat)
    (xs : List Centroid) (hpx : 0 < px) (hpy : py + 1 < UINT64_MOD)
    (hN : xs.length < UINT64_MOD) :
    (List.range px).foldlM (sortColumnsBody sort py (chunkBounds xs.length px))
        (xs, List.replicate px []) =
      some (sortedColumns sort px xs px, rowBounds px py xs px) := by
  obtain ⟨st, hst, h1, h2, h3⟩ := foldlM_range_inv
    (sortColumnsBody sort py (chunkBounds xs.length px))
    (fun i st => st.1 = sortedColumns sort px xs i ++ xs.drop (colStart px xs i) ∧
      st.2.length = px ∧ ∀ t, t < i → st.2[t]? = some (chunkBounds (colSize px xs t) py))
    px (xs, List.replicate px [])
    ⟨by simp [sortedColumns, colStart, chunkStart_zero], by simp, fun t ht => by omega⟩
    (fun i s hi hI => sortColumnsBody_step sort hs px py xs hpx hpy hN s i hi hI.1 hI.2.1 hI.2.2)
  rw [hst]
  congr 1
  apply Prod.ext
  · rw [h1, colStart_last px xs hpx]
    simp
  · apply List.ext_getElem?
    intro t
    rcases Nat.lt_or_ge t px with h | h
    · rw [h3 t h]
      simp [rowBounds, List.getElem?_range h]
    · rw [List.getElem?_eq_none (by omega), List.getElem?_eq_none (by simp [rowBounds]; omega)]

/-! ### The assignment loops -/

theorem rowStart_mono (px py : Nat) (xs : List Centroid) (i : Nat) {j k : Nat} (h : j ≤ k) :
    rowStart px py xs i j ≤ rowStart px py xs i k :=
  chunkStart_mono _ _ h

theorem rowStart_le (px py : Nat) (xs : List Centroid) (hpy : 0 < py) (i : Nat) {j : Nat}
    (h : j ≤ py) : rowStart px py xs i j ≤ colSize px xs i :=
  chunkStart_le_size _ _ hpy h

theorem rowStart_last (px py : Nat) (xs : List Centroid) (hpy : 0 < py) (i : Nat) :
    rowStart px py xs i py = colSize px xs i :=
  chunkStart_last _ _ hpy

theorem block_length (sort : SortFn) (hs : SortContract sort) (px py : Nat)
    (xs : List Centroid) (hpx : 0 < px) (hpy : 0 < py) {i j : Nat} (hi : i < px)
    (hj : j < py) :
    (block sort px py xs i j).length = rowStart px py xs i (j + 1) - rowStart px py xs i j := by
  unfold block
  apply slice_length
  rw [sortedColumn_length sort hs px xs hpx hi]
  exact rowStart_le px py xs hpy i (by omega)

theorem setPartition_loop (centroids : List Centroid) (indexBegin part : Nat)
    (seg : List Centroid) (pv0 : List Nat) (st : AssignState)
    (hget : ∀ k, k < seg.length → centroids[wrap64 (indexBegin + k)]? = seg[k]?)
    (hcells : ∀ c ∈ seg, c.cell < pv0.length)
    (hpv : st.partitionVector = applyWrites pv0 st.writes) :
    ∃ st', (List.range seg.length).foldlM (setPartitionBody centroids indexBegin part) st
        = some st' ∧
      st'.writes = st.writes ++ seg.map (fun c => (c.cell, part)) ∧
      st'.output = st.output ∧
      st'.partitionVector = applyWrites pv0 st'.writes := by
  obtain ⟨st', h, h1, h2, h3⟩ := foldlM_range_inv
    (setPartitionBody centroids indexBegin part)
    (fun k s => s.writes = st.writes ++ (seg.take k).map (fun c => (c.cell, part)) ∧
      s.output = st.output ∧ s.partitionVector = applyWrites pv0 s.writes)
    seg.length st ⟨by simp, rfl, hpv⟩
    (fun k s hk hI => by
      obtain ⟨hw, ho, hp⟩ := hI
      obtain ⟨c, hc⟩ : ∃ c, seg[k]? = some c := ⟨_, List.getElem?_eq_getElem hk⟩
      have hcell : c.cell < s.partitionVector.length := by
        rw [hp, applyWrites_length]
        exact hcells c (List.mem_iff_getElem?.mpr ⟨k, hc⟩)
      refine ⟨{ s with partitionVector := s.partitionVector.set c.cell part,
                       writes := s.writes ++ [(c.cell, part)] }, ?_, ?_, ho, ?_⟩
      · simp [setPartitionBody, hget k hk, hc, storeAt, hcell]
      · simp only [hw, List.take_succ, hc, List.map_append, List.append_assoc]
        rfl
      · simp only [applyWrites_append, ← hp]
        rfl)
  exact ⟨st', h, by simpa using h1, h2, h3⟩

theorem setPartitionsBody_step (sort : SortFn) (hs : SortContract sort) (px py : Nat)
    (xs : List Centroid) (hpx : 0 < px) (hpy : 0 < py)
    (hN : xs.length < UINT64_MOD) (pv0 : List Nat)
    (hcells : ∀ c ∈ xs, c.cell < pv0.length) (i j : Nat) (hi : i < px) (hj : j < py)
    (st : AssignState) (hpv : st.partitionVector = applyWrites pv0 st.writes) :
    ∃ st', setPartitionsBody py (sortedColumns sort px xs px) (chunkBounds xs.length px)
        (rowBounds px py xs px) i st j = some st' ∧
      st'.writes = st.writes ++ blockWrites sort px py xs i j ∧
      st'.output = st.output ++ blockOutput px py xs i j ∧
      st'.partitionVector = applyWrites pv0 st'.writes := by
  have hrow : (rowBounds px py xs px)[i]? = some (chunkBounds (colSize px xs i) py) := by
    simp [rowBounds, List.getElem?_range hi]
  have hhi : (chunkBounds (colSize px xs i) py)[j + 1]? = some (rowStart px py xs i (j + 1)) :=
    chunkBounds_getElem? _ _ (by omega)
  have hlo : (chunkBounds (colSize px xs i) py)[j]? = some (rowStart px py xs i j) :=
    chunkBounds_getElem? _ _ (by omega)
  have hxb : (chunkBounds xs.length px)[i]? = some (colStart px xs i) :=
    chunkBounds_getElem? _ _ (by omega)
  have hmono := rowStart_mono px py xs i (Nat.le_add_right j 1)
  have hrle : rowStart px py xs i (j + 1) ≤ colSize px xs i :=
    rowStart_le px py xs hpy i (by omega)
  have hcle : colStart px xs (i + 1) ≤ xs.length := colStart_le px xs hpx (by omega)
  have hcs := colStart_add_colSize px xs i
  have hnum : sub64 (rowStart px py xs i (j + 1)) (rowStart px py xs i j) =
      rowStart px py xs i (j + 1) - rowStart px py xs i j := sub64_of_le hmono (by omega)
  have hbeg : wrap64 (colStart px xs i + rowStart px py xs i j) =
      colStart px xs i + rowStart px py xs i j := wrap64_of_lt (by omega)
  have hblen := block_length sort hs px py xs hpx hpy hi hj
  have hget : ∀ k, k < (block sort px py xs i j).length →
      (sortedColumns sort px xs px)[wrap64 (colStart px xs i + rowStart px py xs i j + k)]? =
        (block sort px py xs i j)[k]? := by
    intro k hk
    rw [hblen] at hk
    rw [wrap64_of_lt (by omega), Nat.add_assoc,
      sortedColumns_getElem? sort hs px xs hpx hi (by omega)]
    unfold block
    rw [slice_getElem? _ _ _ _ hk]
  have hbcells : ∀ c ∈ block sort px py xs i j, c.cell < pv0.length := by
    intro c hc
    obtain ⟨p, _, _, hp⟩ := mem_slice _ _ _ _ hc
    have hc1 : c ∈ sortedColumn sort px xs i := List.mem_iff_getElem?.mpr ⟨p, hp⟩
    have hc2 := (sortedColumn_perm sort hs px xs i).subset hc1
    obtain ⟨q, _, _, hq⟩ := mem_slice _ _ _ _ hc2
    exact hcells c (List.mem_iff_getElem?.mpr ⟨q, hq⟩)
  obtain ⟨st', h, h1, h2, h3⟩ := setPartition_loop (sortedColumns sort px xs px)
    (colStart px xs i + rowStart px py xs i j) (partitionId i py j) (block sort px py xs i j) pv0
    (if partitionId i py j < 100 then
      { st with output := st.output ++ [(i, j, rowStart px py xs i (j + 1) -
        rowStart px py xs i j)] } else st)
    hget hbcells (by split_ifs <;> exact hpv)
  refine ⟨st', ?_, ?_, ?_, h3⟩
  · rw [hblen] at h
    simp only [setPartitionsBody, hrow, hhi, hlo, hxb, hnum, hbeg, Option.bind_eq_bind,
      Option.some_bind]
    exact h
  · rw [h1]
    split_ifs <;> rfl
  · rw [h2]
    unfold blockOutput
    split_ifs <;> simp

theorem setPartitions_column (sort : SortFn) (hs : SortContract sort) (px py : Nat)
    (xs : List Centroid) (hpx : 0 < px) (hpy : 0 < py)
    (hN : xs.length < UINT64_MOD) (pv0 : List Nat)
    (hcells : ∀ c ∈ xs, c.cell < pv0.length) (i : Nat) (hi : i < px)
    (st : AssignState) (hpv : st.partitionVector = applyWrites pv0 st.writes) :
    ∃ st', (List.range py).foldlM (setPartitionsBody py (sortedColumns sort px xs px)
        (chunkBounds xs.length px) (rowBounds px py xs px) i) st = some st' ∧
      st'.writes = st.writes ++ columnWrites sort px py xs i py ∧
      st'.output = st.output ++ columnOutput px py xs i py ∧
      st'.partitionVector = applyWrites pv0 st'.writes :=
  foldlM_range_inv _
    (fun j s => s.writes = st.writes ++ columnWrites sort px py xs i j ∧
      s.output = st.output ++ columnOutput px py xs i j ∧
      s.partitionVector = applyWrites pv0 s.writes)
    py st ⟨by simp [columnWrites], by simp [columnOutput], hpv⟩
    (fun j s hj hI => by
      obtain ⟨s', h, h1, h2, h3⟩ := setPartitionsBody_step sort hs px py xs hpx hpy hN
        pv0 hcells i j hi hj s hI.2.2
      refine ⟨s', h, ?_, ?_, h3⟩
      · rw [h1, hI.1]; simp [columnWrites, List.range_succ]
      · rw [h2, hI.2.1]; simp [columnOutput, List.range_succ])

theorem setPartitions_all (sort : SortFn) (hs : SortContract sort) (px py : Nat)
    (xs : List Centroid) (hpx : 0 < px) (hpy : 0 < py)
    (hN : xs.length < UINT64_MOD) (pv0 : List Nat)
    (hcells : ∀ c ∈ xs, c.cell < pv0.length) :
    ∃ st', (List.range px).foldlM
        (fun st i => (List.range py).foldlM (setPartitionsBody py (sortedColumns sort px xs px)
          (chunkBounds xs.length px) (rowBounds px py xs px) i) st)
        { partitionVector := pv0, output := [], writes := [] } = some st' ∧
      st'.writes = allWrites sort px py xs px ∧
      st'.output = allOutput px py xs px ∧
      st'.partitionVector = applyWrites pv0 st'.writes :=
  foldlM_range_inv _
    (fun i s => s.writes = allWrites sort px py xs i ∧
      s.output = allOutput px py xs i ∧
      s.partitionVector = applyWrites pv0 s.writes)
    px _ ⟨by simp [allWrites], by simp [allOutput], rfl⟩
    (fun i s hi hI => by
      obtain ⟨s', h, h1, h2, h3⟩ := setPartitions_column sort hs px py xs hpx hpy hN
        pv0 hcells i hi s hI.2.2
      refine ⟨s', h, ?_, ?_, h3⟩
      · rw [h1, hI.1]; simp [allWrites, List.range_succ]
      · rw [h2, hI.2.1]; simp [allOutput, List.range_succ])

/-! ### Closed form of `partitionMesh` -/

theorem xSorted_perm (sort : SortFn) (hs : SortContract sort) (m : SerialMesh) :
    (xSorted sort m).Perm (meshCentroids m) :=
  hs.perm _ _ compareX_strictWeak

theorem xSorted_length (sort : SortFn) (hs : SortContract sort) (m : SerialMesh) :
    (xSorted sort m).length = m.c_numCells := by
  rw [(xSorted_perm sort hs m).length_eq, meshCentroids_length]

theorem xSorted_cells_perm (sort : SortFn) (hs : SortContract sort) (m : SerialMesh)
    (hm : ValidMesh m) :
    ((xSorted sort m).map Centroid.cell).Perm (List.range m.c_numCells) := by
  rw [← meshCentroids_cells m hm]
  exact (xSorted_perm sort hs m).map _

theorem xSorted_cell_lt (sort : SortFn) (hs : SortContract sort) (m : SerialMesh)
    (hm : ValidMesh m) (c : Centroid) (hc : c ∈ xSorted sort m) : c.cell < m.c_numCells := by
  have := (xSorted_cells_perm sort hs m hm).subset (List.mem_map_of_mem Centroid.cell hc)
  simpa using this

theorem int_succ_lt_uint64 (n : Nat) (h : n ≤ INT_MAX) : n + 1 < UINT64_MOD := by
  simp only [INT_MAX, UINT64_MOD] at *
  omega

theorem le_INT_MAX_of_product (px py : Nat) (hpx : 0 < px) (hpy : 0 < py)
    (hov : px * py ≤ INT_MAX) : px ≤ INT_MAX ∧ py ≤ INT_MAX :=
  ⟨le_trans (Nat.le_mul_of_pos_right px hpy) hov, le_trans (Nat.le_mul_of_pos_left py hpx) hov⟩

theorem part_lt (px py : Nat) {i j : Nat} (hi : i < px) (hj : j < py) :
    i * py + j < px * py :=
  calc i * py + j < i * py + py := by omega
    _ = (i + 1) * py := by ring
    _ ≤ px * py := Nat.mul_le_mul_right _ hi

theorem partitionId_eq (i py j : Nat) (h : i * py + j ≤ INT_MAX) :
    partitionId i py j = i * py + j := by
  have h1 : (i * py + j) % INT_MOD = i * py + j :=
    Nat.mod_eq_of_lt (by simp only [INT_MAX, INT_MOD] at *; omega)
  simp [partitionId, h1, h]

theorem partitionId_eq_of_product (px py : Nat) (hov : px * py ≤ INT_MAX) {i j : Nat}
    (hi : i < px) (hj : j < py) : partitionId i py j = i * py + j :=
  partitionId_eq i py j (by have := part_lt px py hi hj; omega)

theorem partitionMesh_eq (sort : SortFn) (hs : SortContract sort) (px py : Nat)
    (m : SerialMesh) (pv : List Nat) (hm : ValidMesh m) (hpx : 0 < px) (hpy : 0 < py)
    (hpxi : px ≤ INT_MAX) (hpyi : py ≤ INT_MAX) (hpv : pv.length = m.c_numCells) :
    partitionMesh sort px py m pv = some
      { centroids := sortedColumns sort px (xSorted sort m) px
        chunksX := chunkBounds m.c_numCells px
        chunksY := rowBounds px py (xSorted sort m) px
        partitionVector := applyWrites pv (allWrites sort px py (xSorted sort m) px)
        output := allOutput px py (xSorted sort m) px
        writes := allWrites sort px py (xSorted sort m) px } := by
  have hpx2 := int_succ_lt_uint64 px hpxi
  have hpy2 := int_succ_lt_uint64 py hpyi
  have hlen := xSorted_length sort hs m
  have hN : (xSorted sort m).length < UINT64_MOD := by rw [hlen]; exact hm.1
  have hsplit := splitIntoChunks_eq (xSorted sort m).length px hN hpx2
  have hcols := sortColumns_eq sort hs px py (xSorted sort m) hpx hpy2 hN
  obtain ⟨st, hst, h1, h2, h3⟩ := setPartitions_all sort hs px py (xSorted sort m) hpx hpy hN
    pv (fun c hc => by rw [hpv]; exact xSorted_cell_lt sort hs m hm c hc)
  unfold partitionMesh
  rw [mapM_cellCentroid m hm]
  simp only [Option.bind_eq_bind, Option.some_bind]
  change (splitIntoChunks (xSorted sort m).length px).bind _ = _
  rw [hsplit]
  simp only [Option.some_bind]
  erw [hcols]
  simp only [Option.some_bind]
  rw [hst]
  simp only [Option.some_bind, Option.pure_def, h1, h2, h3, hlen]

/-! ### Structure of the write trace -/

theorem blockWrites_fst (sort : SortFn) (px py : Nat) (xs : List Centroid) (i j : Nat) :
    (blockWrites sort px py xs i j).map Prod.fst =
      (block sort px py xs i j).map Centroid.cell := by
  simp [blockWrites, List.map_map, Function.comp_def]

theorem columnWrites_fst (sort : SortFn) (px py : Nat) (xs : List Centroid) (i n : Nat) :
    (columnWrites sort px py xs i n).map Prod.fst =
      ((sortedColumn sort px xs i).take (rowStart px py xs i n)).map Centroid.cell := by
  induction n with
  | zero => simp [columnWrites, rowStart, chunkStart_zero]
  | succ k ih =>
    have hsucc : columnWrites sort px py xs i (k + 1) =
        columnWrites sort px py xs i k ++ blockWrites sort px py xs i k := by
      simp [columnWrites, List.range_succ]
    rw [hsucc, List.map_append, ih, blockWrites_fst, ← List.map_append]
    unfold block
    rw [take_append_slice _ (rowStart_mono px py xs i (Nat.le_add_right k 1))]

theorem columnWrites_fst_all (sort : SortFn) (hs : SortContract sort) (px py : Nat)
    (xs : List Centroid) (hpx : 0 < px) (hpy : 0 < py) {i : Nat} (hi : i < px) :
    (columnWrites sort px py xs i py).map Prod.fst =
      (sortedColumn sort px xs i).map Centroid.cell := by
  rw [columnWrites_fst, rowStart_last px py xs hpy i,
    ← sortedColumn_length sort hs px xs hpx hi, List.take_length]

theorem allWrites_fst (sort : SortFn) (hs : SortContract sort) (px py : Nat)
    (xs : List Centroid) (hpx : 0 < px) (hpy : 0 < py) {n : Nat} (hn : n ≤ px) :
    (allWrites sort px py xs n).map Prod.fst =
      (sortedColumns sort px xs n).map Centroid.cell := by
  induction n with
  | zero => simp [allWrites, sortedColumns]
  | succ k ih =>
    have hsucc : allWrites sort px py xs (k + 1) =
        allWrites sort px py xs k ++ columnWrites sort px py xs k py := by
      simp [allWrites, List.range_succ]
    rw [hsucc, List.map_append, ih (by omega), sortedColumns_succ, List.map_append,
      columnWrites_fst_all sort hs px py xs hpx hpy (by omega)]

theorem allWrites_fst_perm (sort : SortFn) (hs : SortContract sort) (px py : Nat)
    (m : SerialMesh) (hm : ValidMesh m) (hpx : 0 < px) (hpy : 0 < py) :
    ((allWrites sort px py (xSorted sort m) px).map Prod.fst).Perm
      (List.range m.c_numCells) := by
  rw [allWrites_fst sort hs px py _ hpx hpy (le_refl px)]
  exact ((sortedColumns_perm_all sort hs px _ hpx).map _).trans
    (xSorted_cells_perm sort hs m hm)

theorem mem_allWrites (sort : SortFn) (px py : Nat) (xs : List Centroid) (n : Nat)
    (w : Nat × Nat) (hw : w ∈ allWrites sort px py xs n) :
    ∃ i j, i < n ∧ j < py ∧ ∃ c ∈ block sort px py xs i j, w = (c.cell, partitionId i py j) := by
  obtain ⟨l, hl, hw⟩ := List.mem_flatten.mp hw
  obtain ⟨i, hi, rfl⟩ := List.mem_map.mp hl
  obtain ⟨l2, hl2, hw⟩ := List.mem_flatten.mp hw
  obtain ⟨j, hj, rfl⟩ := List.mem_map.mp hl2
  obtain ⟨c, hc, rfl⟩ := List.mem_map.mp hw
  exact ⟨i, j, List.mem_range.mp hi, List.mem_range.mp hj, c, hc, rfl⟩

/-! ### Counting cells per partition -/

theorem chunkStart_diff (size n i : Nat) :
    chunkStart size n (i + 1) - chunkStart size n i =
      size / n + (if i < size % n then 1 else 0) := by
  rw [chunkStart_succ, Nat.add_assoc, Nat.add_sub_cancel_left]

theorem colSize_eq (px : Nat) (xs : List Centroid) (i : Nat) :
    colSize px xs i = xs.length / px + (if i < xs.length % px then 1 else 0) :=
  chunkStart_diff _ _ _

theorem rowSize_eq (px py : Nat) (xs : List Centroid) (i j : Nat) :
    rowSize px py xs i j =
      colSize px xs i / py + (if j < colSize px xs i % py then 1 else 0) :=
  chunkStart_diff _ _ _

theorem rowSize_bounds (px py : Nat) (xs : List Centroid) (i j : Nat) :
    xs.length / (px * py) ≤ rowSize px py xs i j ∧
      rowSize px py xs i j ≤ xs.length / (px * py) + 1 := by
  rw [rowSize_eq, ← Nat.div_div_eq_div_mul]
  have hs := colSize_eq px xs i
  set s := colSize px xs i
  set a := xs.length / px
  have hlow : a / py ≤ s / py := Nat.div_le_div_right (by rw [hs]; omega)
  constructor
  · omega
  · by_cases hmod : s % py = 0
    · have hup : s / py ≤ (a + 1) / py := Nat.div_le_div_right (by rw [hs]; split_ifs <;> omega)
      have := Nat.succ_div a py
      simp only [Nat.succ_eq_add_one] at this
      rw [hmod]
      simp only [Nat.not_lt_zero, if_false]
      split_ifs at this <;> omega
    · have hsa : s / py = a / py := by
        split_ifs at hs with h
        · have hdvd : ¬ py ∣ a + 1 := by
            intro hd
            rw [hs] at hmod
            exact hmod (Nat.mod_eq_zero_of_dvd hd)
          rw [hs, Nat.succ_div, if_neg hdvd]
          rfl
        · rw [hs]; rfl
      rw [hsa]
      split_ifs <;> omega

theorem rowSize_of_dvd (px py : Nat) (xs : List Centroid) (i j : Nat) (hpx : 0 < px)
    (hdvd : px * py ∣ xs.length) : rowSize px py xs i j = xs.length / (px * py) := by
  obtain ⟨k, hk⟩ := hdvd
  have h1 : xs.length % px = 0 := by
    rw [hk, Nat.mul_assoc]; exact Nat.mul_mod_right _ _
  have h2 : xs.length / px = py * k := by
    rw [hk, Nat.mul_assoc]; exact Nat.mul_div_cancel_left _ hpx
  have h3 : colSize px xs i = py * k := by
    rw [colSize_eq, h1, h2]; simp
  rw [rowSize_eq, h3, ← Nat.div_div_eq_div_mul, h2]
  simp

theorem sum_rowSize (px py : Nat) (xs : List Centroid) (i : Nat) (hpy : 0 < py) :
    ∑ j in Finset.range py, rowSize px py xs i j = colSize px xs i := by
  have hmono : Monotone (rowStart px py xs i) := fun a b h => rowStart_mono px py xs i h
  have := Finset.sum_range_tsub hmono py
  simp only [rowSize]
  rw [this, rowStart_last px py xs hpy i]
  simp [rowStart, chunkStart_zero]

theorem part_div (py : Nat) {i j : Nat} (hj : j < py) : (i * py + j) / py = i := by
  rw [Nat.add_comm, Nat.add_mul_div_right _ _ (by omega), Nat.div_eq_of_lt hj, Nat.zero_add]

theorem part_mod (py : Nat) {i j : Nat} (hj : j < py) : (i * py + j) % py = j := by
  rw [Nat.add_comm, Nat.add_mul_mod_self_right, Nat.mod_eq_of_lt hj]

theorem countP_flatten_range {α : Type} (P : α → Bool) (g : Nat → List α) (n : Nat) :
    (((List.range n).map g).flatten).countP P = ∑ i in Finset.range n, (g i).countP P := by
  induction n with
  | zero => simp
  | succ k ih =>
    rw [List.range_succ, List.map_append, List.flatten_append, List.countP_append, ih,
      Finset.sum_range_succ]
    simp

theorem countP_blockWrites (sort : SortFn) (hs : SortContract sort) (px py : Nat)
    (xs : List Centroid) (hpx : 0 < px) (hpy : 0 < py) (P : Nat → Bool) {i j : Nat}
    (hi : i < px) (hj : j < py) :
    ((blockWrites sort px py xs i j).map Prod.snd).countP P =
      if P (partitionId i py j) then rowSize px py xs i j else 0 := by
  have hmap : (blockWrites sort px py xs i j).map Prod.snd =
      List.replicate (rowSize px py xs i j) (partitionId i py j) := by
    unfold rowSize
    rw [← block_length sort hs px py xs hpx hpy hi hj]
    simp [blockWrites, List.map_map, Function.comp_def]
  rw [hmap, List.countP_replicate]

theorem countP_allWrites (sort : SortFn) (hs : SortContract sort) (px py : Nat)
    (xs : List Centroid) (hpx : 0 < px) (hpy : 0 < py) (P : Nat → Bool) :
    ((allWrites sort px py xs px).map Prod.snd).countP P =
      ∑ i in Finset.range px, ∑ j in Finset.range py,
        if P (partitionId i py j) then rowSize px py xs i j else 0 := by
  have h1 : (allWrites sort px py xs px).map Prod.snd =
      ((List.range px).map (fun i => (columnWrites sort px py xs i py).map Prod.snd)).flatten := by
    simp [allWrites, List.map_flatten, List.map_map, Function.comp_def]
  rw [h1, countP_flatten_range]
  apply Finset.sum_congr rfl
  intro i hi
  have h2 : (columnWrites sort px py xs i py).map Prod.snd =
      ((List.range py).map (fun j => (blockWrites sort px py xs i j).map Prod.snd)).flatten := by
    simp [columnWrites, List.map_flatten, List.map_map, Function.comp_def]
  rw [h2, countP_flatten_range]
  apply Finset.sum_congr rfl
  intro j hj
  exact countP_blockWrites sort hs px py xs hpx hpy P (Finset.mem_range.mp hi)
    (Finset.mem_range.mp hj)

theorem count_allWrites (sort : SortFn) (hs : SortContract sort) (px py : Nat)
    (xs : List Centroid) (hpx : 0 < px) (hpy : 0 < py) (hov : px * py ≤ INT_MAX)
    {i0 j0 : Nat} (hi0 : i0 < px) (hj0 : j0 < py) :
    ((allWrites sort px py xs px).map Prod.snd).count (i0 * py + j0) =
      rowSize px py xs i0 j0 := by
  rw [List.count, countP_allWrites sort hs px py xs hpx hpy]
  rw [Finset.sum_eq_single i0]
  · rw [Finset.sum_eq_single j0]
    · simp [partitionId_eq_of_product px py hov hi0 hj0]
    · intro j hj hne
      rw [partitionId_eq_of_product px py hov hi0 (Finset.mem_range.mp hj)]
      simp [hne]
    · intro h; exact absurd (Finset.mem_range.mpr hj0) h
  · intro i hi hne
    apply Finset.sum_eq_zero
    intro j hj
    rw [partitionId_eq_of_product px py hov (Finset.mem_range.mp hi) (Finset.mem_range.mp hj)]
    have : i * py + j ≠ i0 * py + j0 := by
      intro h
      have := congrArg (· / py) h
      simp only [part_div py (Finset.mem_range.mp hj), part_div py hj0] at this
      exact hne this
    simp [this]
  · intro h; exact absurd (Finset.mem_range.mpr hi0) h

theorem countP_column_allWrites (sort : SortFn) (hs : SortContract sort) (px py : Nat)
    (xs : List Centroid) (hpx : 0 < px) (hpy : 0 < py) (hov : px * py ≤ INT_MAX)
    {i0 : Nat} (hi0 : i0 < px) :
    ((allWrites sort px py xs px).map Prod.snd).countP (fun p => decide (p / py = i0)) =
      colSize px xs i0 := by
  rw [countP_allWrites sort hs px py xs hpx hpy]
  rw [Finset.sum_eq_single i0]
  · rw [← sum_rowSize px py xs i0 hpy]
    apply Finset.sum_congr rfl
    intro j hj
    rw [partitionId_eq_of_product px py hov hi0 (Finset.mem_range.mp hj)]
    simp [part_div py (Finset.mem_range.mp hj)]
  · intro i hi hne
    apply Finset.sum_eq_zero
    intro j hj
    rw [partitionId_eq_of_product px py hov (Finset.mem_range.mp hi) (Finset.mem_range.mp hj)]
    simp [part_div py (Finset.mem_range.mp hj), hne]
  · intro h; exact absurd (Finset.mem_range.mpr hi0) h

/-! ### Concrete meshes -/

theorem cubeMesh_valid : ValidMesh cubeMesh := by
  unfold ValidMesh cubeMesh
  decide

theorem lineMesh_valid : ValidMesh lineMesh := by
  unfold ValidMesh lineMesh
  decide

theorem emptyMesh_valid : ValidMesh emptyMesh := by
  unfold ValidMesh emptyMesh
  decide

/-! ### Chunk Splitter claims -/

/-- C2 (amended): for every `size < 2^64` and every `numChunks` with
`1 ≤ numChunks` and `numChunks + 1 < 2^64`, `splitIntoChunks` returns a vector of length
`numChunks + 1` whose first entry is `0` and whose last entry is `size`. -/
theorem splitIntoChunks_endpoints (size numChunks : Nat) (hsize : size < UINT64_MOD)
    (hpos : 1 ≤ numChunks) (hn : numChunks + 1 < UINT64_MOD) :
    ∃ b, splitIntoChunks size numChunks = some b ∧ b.length = numChunks + 1 ∧
      b[0]? = some 0 ∧ b[numChunks]? = some size := by
  refine ⟨chunkBounds size numChunks, splitIntoChunks_eq size numChunks hsize hn,
    chunkBounds_length size numChunks, ?_, ?_⟩
  · rw [chunkBounds_getElem? size numChunks (Nat.zero_le _), chunkStart_zero]
  · rw [chunkBounds_getElem? size numChunks (le_refl _), chunkStart_last size numChunks hpos]

theorem splitIntoChunks_endpoints_witness :
    ∃ b, splitIntoChunks 10 3 = some b ∧ b.length = 3 + 1 ∧
      b[0]? = some 0 ∧ b[3]? = some 10 :=
  splitIntoChunks_endpoints 10 3 (by decide) (by decide) (by decide)

/-- C2 (counterexample): at `numChunks = 2^64 - 1` the length `numChunks + 1` wraps to `0`,
the store to `chunkIndices[0]` is out of bounds and no vector is returned. -/
theorem splitIntoChunks_uint64_max :
    (1 ≤ 18446744073709551615 ∧ 18446744073709551615 < UINT64_MOD) ∧
      splitIntoChunks 0 18446744073709551615 = none :=
  ⟨by decide, by decide⟩

theorem splitIntoChunks_some (size numChunks : Nat) (hsize : size < UINT64_MOD)
    (hn : numChunks < UINT64_MOD) (b : List Nat) (hb : splitIntoChunks size numChunks = some b) :
    b = chunkBounds size numChunks := by
  rcases Nat.lt_or_ge (numChunks + 1) UINT64_MOD with h | h
  · rw [splitIntoChunks_eq size numChunks hsize h] at hb
    exact (Option.some.inj hb).symm
  · rw [splitIntoChunks_wrapped size numChunks (by omega)] at hb
    exact absurd hb (by simp)

theorem chunkBounds_getD (size numChunks : Nat) {i : Nat} (h : i ≤ numChunks) :
    (chunkBounds size numChunks).getD i 0 = chunkStart size numChunks i := by
  rw [List.getD_eq_getElem?_getD, chunkBounds_getElem? size numChunks h]
  rfl

/-- C3: for every `size` and every `numChunks` (64-bit values, in particular every
`numChunks ≥ 1`), a vector is returned whenever `numChunks + 1` does not wrap, and every
returned vector `b` is non-decreasing
(`b[i] ≤ b[i+1]` for `i < numChunks`) with any two chunk sizes `b[i+1] - b[i]` and
`b[j+1] - b[j]` differing by at most one. -/
theorem splitIntoChunks_balanced (size numChunks : Nat) (hsize : size < UINT64_MOD)
    (hn : numChunks < UINT64_MOD) :
    (numChunks + 1 < UINT64_MOD → ∃ b, splitIntoChunks size numChunks = some b) ∧
    ∀ b, splitIntoChunks size numChunks = some b →
      (∀ i, i < numChunks → b.getD i 0 ≤ b.getD (i + 1) 0) ∧
      (∀ i j, i < numChunks → j < numChunks →
        b.getD (i + 1) 0 - b.getD i 0 ≤ (b.getD (j + 1) 0 - b.getD j 0) + 1) := by
  refine ⟨fun h => ⟨_, splitIntoChunks_eq size numChunks hsize h⟩, fun b hb => ?_⟩
  have hb2 := splitIntoChunks_some size numChunks hsize hn b hb
  subst hb2
  refine ⟨fun i hi => ?_, fun i j hi hj => ?_⟩
  · rw [chunkBounds_getD size numChunks (Nat.le_of_lt hi), chunkBounds_getD size numChunks hi]
    exact chunkStart_mono size numChunks (Nat.le_add_right i 1)
  · rw [chunkBounds_getD size numChunks (Nat.le_of_lt hi), chunkBounds_getD size numChunks hi,
      chunkBounds_getD size numChunks (Nat.le_of_lt hj), chunkBounds_getD size numChunks hj,
      chunkStart_diff, chunkStart_diff]
    split_ifs <;> omega

theorem splitIntoChunks_balanced_witness :
    (3 + 1 < UINT64_MOD → ∃ b, splitIntoChunks 10 3 = some b) ∧
    ∀ b, splitIntoChunks 10 3 = some b →
      (∀ i, i < 3 → b.getD i 0 ≤ b.getD (i + 1) 0) ∧
      (∀ i j, i < 3 → j < 3 →
        b.getD (i + 1) 0 - b.getD i 0 ≤ (b.getD (j + 1) 0 - b.getD j 0) + 1) :=
  splitIntoChunks_balanced 10 3 (by decide) (by decide)

/-- C4: for every `size` and every `numChunks` (64-bit values, in particular every
`numChunks ≥ 1`), a vector is returned whenever `numChunks + 1` does not wrap, and in every
returned vector chunk `i < numChunks`
has size `size / numChunks + 1` if `i < size % numChunks` and `size / numChunks` otherwise,
while entry `i ≤ numChunks` is `i * (size / numChunks) + min i (size % numChunks)`. -/
theorem splitIntoChunks_remainder (size numChunks : Nat) (hsize : size < UINT64_MOD)
    (hn : numChunks < UINT64_MOD) :
    (numChunks + 1 < UINT64_MOD → ∃ b, splitIntoChunks size numChunks = some b) ∧
    ∀ b, splitIntoChunks size numChunks = some b →
      (∀ i, i < numChunks → b.getD (i + 1) 0 - b.getD i 0 =
        if i < size % numChunks then size / numChunks + 1 else size / numChunks) ∧
      (∀ i, i ≤ numChunks →
        b[i]? = some (i * (size / numChunks) + min i (size % numChunks))) := by
  refine ⟨fun h => ⟨_, splitIntoChunks_eq size numChunks hsize h⟩, fun b hb => ?_⟩
  have hb2 := splitIntoChunks_some size numChunks hsize hn b hb
  subst hb2
  refine ⟨fun i hi => ?_, fun i hi => chunkBounds_getElem? size numChunks hi⟩
  rw [chunkBounds_getD size numChunks (Nat.le_of_lt hi), chunkBounds_getD size numChunks hi,
    chunkStart_diff]
  split_ifs <;> rfl

theorem splitIntoChunks_remainder_witness :
    splitIntoChunks 10 3 = some [0, 4, 7, 10] ∧
    ((3 + 1 < UINT64_MOD → ∃ b, splitIntoChunks 10 3 = some b) ∧
    ∀ b, splitIntoChunks 10 3 = some b →
      (∀ i, i < 3 → b.getD (i + 1) 0 - b.getD i 0 = if i < 10 % 3 then 10 / 3 + 1 else 10 / 3) ∧
      (∀ i, i ≤ 3 → b[i]? = some (i * (10 / 3) + min i (10 % 3)))) :=
  ⟨by decide, splitIntoChunks_remainder 10 3 (by decide) (by decide)⟩

/-- C10 (amended): for every `size`, `splitIntoChunks size 0` performs no division (the loop
body never runs) and returns the one-entry vector `{0}`; a zero chunk count is not rejected
by `splitIntoChunks` itself. -/
theorem splitIntoChunks_zero_chunks (size : Nat) : splitIntoChunks size 0 = some [0] :=
  splitIntoChunks_zero size

/-- C10 (counterexample): `splitIntoChunks 10 0` does not fail; it returns `{0}`. -/
theorem splitIntoChunks_zero_not_rejected : splitIntoChunks 10 0 = some [0] := by
  decide

/-! ### Column Partitioner claims -/

theorem mem_allWrites_snd_lt (sort : SortFn) (px py : Nat) (xs : List Centroid)
    (hov : px * py ≤ INT_MAX) (p : Nat)
    (hp : p ∈ (allWrites sort px py xs px).map Prod.snd) : p < px * py := by
  obtain ⟨w, hw, rfl⟩ := List.mem_map.mp hp
  obtain ⟨i, j, hi, hj, c, _, rfl⟩ := mem_allWrites sort px py xs px w hw
  simp only [partitionId_eq_of_product px py hov hi hj]
  exact part_lt px py hi hj

theorem assignment_perm (sort : SortFn) (hs : SortContract sort) (px py : Nat)
    (m : SerialMesh) (pv : List Nat) (hm : ValidMesh m) (hpx : 0 < px) (hpy : 0 < py)
    (hpv : pv.length = m.c_numCells) :
    (applyWrites pv (allWrites sort px py (xSorted sort m) px)).Perm
      ((allWrites sort px py (xSorted sort m) px).map Prod.snd) :=
  applyWrites_perm _ _ (by rw [hpv]; exact allWrites_fst_perm sort hs px py m hm hpx hpy)

/-- C1: for every valid mesh, positive partition counts whose product fits in `int`, and an
output vector of length `numCells`, `partitionMesh` returns; the sequence of cell indices it
writes is a permutation of `0..numCells-1`; the output vector keeps length `numCells`; and
every entry of the output is below `numPartitionsX * numPartitionsY`. -/
theorem partitionMesh_complete (sort : SortFn) (hs : SortContract sort)
    (numPartitionsX numPartitionsY : Nat) (serialMesh : SerialMesh)
    (partitionVector : List Nat) (hm : ValidMesh serialMesh) (hpx : 0 < numPartitionsX)
    (hpy : 0 < numPartitionsY) (hov : numPartitionsX * numPartitionsY ≤ INT_MAX)
    (hpv : partitionVector.length = serialMesh.c_numCells) :
    ∃ st, partitionMesh sort numPartitionsX numPartitionsY serialMesh partitionVector = some st ∧
      (st.writes.map Prod.fst).Perm (List.range serialMesh.c_numCells) ∧
      st.partitionVector.length = serialMesh.c_numCells ∧
      ∀ p ∈ st.partitionVector, p < numPartitionsX * numPartitionsY := by
  obtain ⟨hpxi, hpyi⟩ := le_INT_MAX_of_product _ _ hpx hpy hov
  refine ⟨_, partitionMesh_eq sort hs _ _ serialMesh partitionVector hm hpx hpy hpxi hpyi hpv,
    allWrites_fst_perm sort hs _ _ serialMesh hm hpx hpy, ?_, fun p hp => ?_⟩
  · simp only [applyWrites_length, hpv]
  · exact mem_allWrites_snd_lt sort _ _ _ hov p
      ((assignment_perm sort hs _ _ serialMesh partitionVector hm hpx hpy hpv).subset hp)

theorem partitionMesh_complete_witness :
    ∃ st, partitionMesh insertionSort 2 2 cubeMesh (List.replicate 8 0) = some st ∧
      (st.writes.map Prod.fst).Perm (List.range cubeMesh.c_numCells) ∧
      st.partitionVector.length = cubeMesh.c_numCells ∧
      ∀ p ∈ st.partitionVector, p < 2 * 2 :=
  partitionMesh_complete insertionSort insertionSort_contract 2 2 cubeMesh (List.replicate 8 0)
    cubeMesh_valid (by decide) (by decide) (by decide) (by decide)

theorem assignment_count (sort : SortFn) (hs : SortContract sort) (px py : Nat)
    (m : SerialMesh) (pv : List Nat) (hm : ValidMesh m) (hpx : 0 < px) (hpy : 0 < py)
    (hov : px * py ≤ INT_MAX) (hpv : pv.length = m.c_numCells) (p : Nat) (hp : p < px * py) :
    (applyWrites pv (allWrites sort px py (xSorted sort m) px)).count p =
      rowSize px py (xSorted sort m) (p / py) (p % py) := by
  rw [(assignment_perm sort hs px py m pv hm hpx hpy hpv).count_eq]
  have hi : p / py < px := (Nat.div_lt_iff_lt_mul hpy).mpr hp
  have hj : p % py < py := Nat.mod_lt p hpy
  have hsplit : p = p / py * py + p % py := (Nat.div_add_mod' p py).symm
  conv_lhs => rw [hsplit]
  exact count_allWrites sort hs px py _ hpx hpy hov hi hj

/-- C6: for every valid mesh and positive partition counts (product within `int`), for every
partition id `p < numPartitionsX * numPartitionsY`, the number of cells assigned id `p`
differs from `numCells / (numPartitionsX * numPartitionsY)` by at most
`numPartitionsY + 1`. -/
theorem partitionMesh_balance_bound (sort : SortFn) (hs : SortContract sort)
    (numPartitionsX numPartitionsY : Nat) (serialMesh : SerialMesh)
    (partitionVector : List Nat) (hm : ValidMesh serialMesh) (hpx : 0 < numPartitionsX)
    (hpy : 0 < numPartitionsY) (hov : numPartitionsX * numPartitionsY ≤ INT_MAX)
    (hpv : partitionVector.length = serialMesh.c_numCells) :
    ∃ st, partitionMesh sort numPartitionsX numPartitionsY serialMesh partitionVector = some st ∧
      ∀ p, p < numPartitionsX * numPartitionsY →
        st.partitionVector.count p ≤
          serialMesh.c_numCells / (numPartitionsX * numPartitionsY) + (numPartitionsY + 1) ∧
        serialMesh.c_numCells / (numPartitionsX * numPartitionsY) ≤
          st.partitionVector.count p + (numPartitionsY + 1) := by
  obtain ⟨hpxi, hpyi⟩ := le_INT_MAX_of_product _ _ hpx hpy hov
  refine ⟨_, partitionMesh_eq sort hs _ _ serialMesh partitionVector hm hpx hpy hpxi hpyi hpv,
    fun p hp => ?_⟩
  simp only [assignment_count sort hs _ _ serialMesh partitionVector hm hpx hpy hov hpv p hp]
  have := rowSize_bounds numPartitionsX numPartitionsY (xSorted sort serialMesh)
    (p / numPartitionsY) (p % numPartitionsY)
  rw [xSorted_length sort hs serialMesh] at this
  omega

theorem partitionMesh_balance_bound_witness :
    ∃ st, partitionMesh insertionSort 3 1 lineMesh (List.replicate 10 0) = some st ∧
      ∀ p, p < 3 * 1 →
        st.partitionVector.count p ≤ lineMesh.c_numCells / (3 * 1) + (1 + 1) ∧
        lineMesh.c_numCells / (3 * 1) ≤ st.partitionVector.count p + (1 + 1) :=
  partitionMesh_balance_bound insertionSort insertionSort_contract 3 1 lineMesh
    (List.replicate 10 0) lineMesh_valid (by decide) (by decide) (by decide) (by decide)

/-- C7: for every valid mesh and positive partition counts (product within `int`), for every
column `i < numPartitionsX`, the number of cells whose assigned id `p` has
`p / numPartitionsY = i` equals `b[i+1] - b[i]`, where
`b = splitIntoChunks numCells numPartitionsX`. -/
theorem partitionMesh_column_sizes (sort : SortFn) (hs : SortContract sort)
    (numPartitionsX numPartitionsY : Nat) (serialMesh : SerialMesh)
    (partitionVector : List Nat) (hm : ValidMesh serialMesh) (hpx : 0 < numPartitionsX)
    (hpy : 0 < numPartitionsY) (hov : numPartitionsX * numPartitionsY ≤ INT_MAX)
    (hpv : partitionVector.length = serialMesh.c_numCells) :
    ∃ st b, partitionMesh sort numPartitionsX numPartitionsY serialMesh partitionVector
        = some st ∧
      splitIntoChunks serialMesh.c_numCells numPartitionsX = some b ∧
      ∀ i, i < numPartitionsX →
        st.partitionVector.countP (fun p => decide (p / numPartitionsY = i)) =
          b.getD (i + 1) 0 - b.getD i 0 := by
  obtain ⟨hpxi, hpyi⟩ := le_INT_MAX_of_product _ _ hpx hpy hov
  refine ⟨_, _,
    partitionMesh_eq sort hs _ _ serialMesh partitionVector hm hpx hpy hpxi hpyi hpv,
    splitIntoChunks_eq _ _ hm.1 (int_succ_lt_uint64 _ hpxi), fun i hi => ?_⟩
  simp only []
  rw [(assignment_perm sort hs _ _ serialMesh partitionVector hm hpx hpy hpv).countP_eq,
    countP_column_allWrites sort hs _ _ _ hpx hpy hov hi,
    chunkBounds_getD _ _ (Nat.le_of_lt hi), chunkBounds_getD _ _ hi]
  unfold colSize colStart
  rw [xSorted_length sort hs serialMesh]

theorem partitionMesh_column_sizes_witness :
    ∃ st, partitionMesh insertionSort 3 1 lineMesh (List.replicate 10 0) = some st ∧
      st.partitionVector.countP (fun p => decide (p / 1 = 0)) = 4 ∧
      st.partitionVector.countP (fun p => decide (p / 1 = 1)) = 3 ∧
      st.partitionVector.countP (fun p => decide (p / 1 = 2)) = 3 := by
  obtain ⟨st, b, h1, h2, h3⟩ := partitionMesh_column_sizes insertionSort insertionSort_contract
    3 1 lineMesh (List.replicate 10 0) lineMesh_valid (by decide) (by decide) (by decide)
    (by decide)
  have hb : b = [0, 4, 7, 10] := by
    have h : splitIntoChunks 10 3 = some [0, 4, 7, 10] := by decide
    change splitIntoChunks 10 3 = some b at h2
    rw [h] at h2
    exact (Option.some.inj h2).symm
  subst hb
  exact ⟨st, h1, h3 0 (by decide), h3 1 (by decide), h3 2 (by decide)⟩

/-- C8: for every valid mesh and positive partition counts (product within `int`) such that
`numPartitionsX * numPartitionsY` divides `numCells`, every partition id below
`numPartitionsX * numPartitionsY` is assigned exactly
`numCells / (numPartitionsX * numPartitionsY)` cells, whatever ties the centroids have. -/
theorem partitionMesh_exact_balance (sort : SortFn) (hs : SortContract sort)
    (numPartitionsX numPartitionsY : Nat) (serialMesh : SerialMesh)
    (partitionVector : List Nat) (hm : ValidMesh serialMesh) (hpx : 0 < numPartitionsX)
    (hpy : 0 < numPartitionsY) (hov : numPartitionsX * numPartitionsY ≤ INT_MAX)
    (hpv : partitionVector.length = serialMesh.c_numCells)
    (hdvd : numPartitionsX * numPartitionsY ∣ serialMesh.c_numCells) :
    ∃ st, partitionMesh sort numPartitionsX numPartitionsY serialMesh partitionVector = some st ∧
      ∀ p, p < numPartitionsX * numPartitionsY →
        st.partitionVector.count p =
          serialMesh.c_numCells / (numPartitionsX * numPartitionsY) := by
  obtain ⟨hpxi, hpyi⟩ := le_INT_MAX_of_product _ _ hpx hpy hov
  refine ⟨_, partitionMesh_eq sort hs _ _ serialMesh partitionVector hm hpx hpy hpxi hpyi hpv,
    fun p hp => ?_⟩
  simp only [assignment_count sort hs _ _ serialMesh partitionVector hm hpx hpy hov hpv p hp]
  rw [rowSize_of_dvd _ _ _ _ _ hpx (by rw [xSorted_length sort hs serialMesh]; exact hdvd),
    xSorted_length sort hs serialMesh]

theorem partitionMesh_exact_balance_witness :
    ∃ st, partitionMesh insertionSort 2 2 cubeMesh (List.replicate 8 0) = some st ∧
      ∀ p, p < 2 * 2 → st.partitionVector.count p = 2 :=
  partitionMesh_exact_balance insertionSort insertionSort_contract 2 2 cubeMesh
    (List.replicate 8 0) cubeMesh_valid (by decide) (by decide) (by decide) (by decide)
    (by decide)

theorem chunkBounds_zero_size (n : Nat) : chunkBounds 0 n = List.replicate (n + 1) 0 := by
  rw [List.eq_replicate_iff]
  refine ⟨chunkBounds_length 0 n, fun b hb => ?_⟩
  obtain ⟨i, _, rfl⟩ := List.mem_map.mp hb
  simp [chunkStart]

theorem rowBounds_nil (px py : Nat) :
    rowBounds px py [] px = List.replicate px (List.replicate (py + 1) 0) := by
  rw [List.eq_replicate_iff]
  refine ⟨by simp [rowBounds], fun b hb => ?_⟩
  obtain ⟨i, _, rfl⟩ := List.mem_map.mp hb
  have : colSize px [] i = 0 := by simp [colSize, colStart, chunkStart]
  rw [this, chunkBounds_zero_size]

/-- C9: for a mesh with `numCells = 0` and any positive `int` partition counts,
`partitionMesh` returns (no out-of-bounds access, no division by zero), performs no write,
leaves the assignment vector empty, and the X-column boundary vector and every Y-row
boundary vector it computes are all zeros. -/
theorem partitionMesh_zero_cells (sort : SortFn) (hs : SortContract sort)
    (numPartitionsX numPartitionsY : Nat) (serialMesh : SerialMesh)
    (partitionVector : List Nat) (hm : ValidMesh serialMesh)
    (hzero : serialMesh.c_numCells = 0) (hpx : 0 < numPartitionsX) (hpy : 0 < numPartitionsY)
    (hpxi : numPartitionsX ≤ INT_MAX) (hpyi : numPartitionsY ≤ INT_MAX)
    (hpv : partitionVector.length = serialMesh.c_numCells) :
    ∃ st, partitionMesh sort numPartitionsX numPartitionsY serialMesh partitionVector = some st ∧
      st.writes = [] ∧ st.partitionVector = [] ∧
      st.chunksX = List.replicate (numPartitionsX + 1) 0 ∧
      st.chunksY = List.replicate numPartitionsX (List.replicate (numPartitionsY + 1) 0) := by
  have hxs : xSorted sort serialMesh = [] :=
    List.length_eq_zero.mp (by rw [xSorted_length sort hs, hzero])
  have hw : allWrites sort numPartitionsX numPartitionsY (xSorted sort serialMesh)
      numPartitionsX = [] := by
    have := allWrites_fst_perm sort hs numPartitionsX numPartitionsY serialMesh hm hpx hpy
    rw [hzero] at this
    simpa using this
  have hpv0 : partitionVector = [] := List.length_eq_zero.mp (by rw [hpv, hzero])
  refine ⟨_, partitionMesh_eq sort hs _ _ serialMesh partitionVector hm hpx hpy hpxi hpyi hpv,
    hw, ?_, ?_, ?_⟩
  · simp only [hw, hpv0]
    rfl
  · simp only [hzero]
    exact chunkBounds_zero_size numPartitionsX
  · simp only [hxs]
    exact rowBounds_nil numPartitionsX numPartitionsY

theorem partitionMesh_zero_cells_witness :
    ∃ st, partitionMesh insertionSort 3 2 emptyMesh [] = some st ∧
      st.writes = [] ∧ st.partitionVector = [] ∧
      st.chunksX = List.replicate (3 + 1) 0 ∧
      st.chunksY = List.replicate 3 (List.replicate (2 + 1) 0) :=
  partitionMesh_zero_cells insertionSort insertionSort_contract 3 2 emptyMesh []
    emptyMesh_valid rfl (by decide) (by decide) (by decide) (by decide) rfl

theorem pairwise_getElem? {α : Type} {R : α → α → Prop} {l : List α} (h : l.Pairwise R)
    {p q : Nat} {a b : α} (hp : l[p]? = some a) (hq : l[q]? = some b) (hpq : p < q) :
    R a b := by
  obtain ⟨hp1, hp2⟩ := List.getElem?_eq_some_iff.mp hp
  obtain ⟨hq1, hq2⟩ := List.getElem?_eq_some_iff.mp hq
  rw [← hp2, ← hq2]
  exact List.pairwise_iff_getElem.mp h p q hp1 hq1 hpq

theorem mem_block_column (sort : SortFn) (hs : SortContract sort) (px py : Nat)
    (xs : List Centroid) (i j : Nat) (c : Centroid) (hc : c ∈ block sort px py xs i j) :
    (∃ q, rowStart px py xs i j ≤ q ∧ q < rowStart px py xs i (j + 1) ∧
      (sortedColumn sort px xs i)[q]? = some c) ∧
    (∃ p, colStart px xs i ≤ p ∧ p < colStart px xs (i + 1) ∧ xs[p]? = some c) := by
  obtain ⟨q, hq1, hq2, hq⟩ := mem_slice _ _ _ _ hc
  refine ⟨⟨q, hq1, hq2, hq⟩, ?_⟩
  have hc1 : c ∈ sortedColumn sort px xs i := List.mem_iff_getElem?.mpr ⟨q, hq⟩
  exact mem_slice _ _ _ _ ((sortedColumn_perm sort hs px xs i).subset hc1)

theorem cell_assignment (sort : SortFn) (hs : SortContract sort) (px py : Nat)
    (m : SerialMesh) (pv : List Nat) (hm : ValidMesh m) (hpx : 0 < px) (hpy : 0 < py)
    (hov : px * py ≤ INT_MAX) (hpv : pv.length = m.c_numCells) (a : Nat)
    (ha : a < m.c_numCells) :
    ∃ i j c, i < px ∧ j < py ∧ c ∈ block sort px py (xSorted sort m) i j ∧
      cellCentroid m a = some c ∧
      (applyWrites pv (allWrites sort px py (xSorted sort m) px)).getD a 0 = i * py + j := by
  have hperm := allWrites_fst_perm sort hs px py m hm hpx hpy
  have hmem : a ∈ (allWrites sort px py (xSorted sort m) px).map Prod.fst :=
    hperm.symm.subset (List.mem_range.mpr ha)
  obtain ⟨w, hw, hwa⟩ := List.mem_map.mp hmem
  obtain ⟨i, j, hi, hj, c, hc, hwc⟩ := mem_allWrites sort px py _ px w hw
  have hca : c.cell = a := by rw [← hwa, hwc]
  refine ⟨i, j, c, hi, hj, hc, ?_, ?_⟩
  · obtain ⟨_, p, _, _, hp⟩ := mem_block_column sort hs px py _ i j c hc
    have hcx : c ∈ xSorted sort m := List.mem_iff_getElem?.mpr ⟨p, hp⟩
    obtain ⟨k, hk⟩ := List.mem_iff_getElem?.mp ((xSorted_perm sort hs m).subset hcx)
    have hklt : k < m.c_numCells := by
      have := (List.getElem?_eq_some_iff.mp hk).1
      rwa [meshCentroids_length] at this
    rw [meshCentroids_getElem? m hm k hklt] at hk
    have : k = a := by rw [← cellCentroid_cell m k c hk, hca]
    rw [← this, hk]
  · have hnd : ((allWrites sort px py (xSorted sort m) px).map Prod.fst).Nodup :=
      hperm.nodup_iff.mpr (List.nodup_range _)
    have hwmem : (a, i * py + j) ∈ allWrites sort px py (xSorted sort m) px := by
      rw [← hca, ← partitionId_eq_of_product px py hov hi hj, ← hwc]
      exact hw
    rw [List.getD_eq_getElem?_getD,
      applyWrites_getElem?_of_mem _ pv a _ hnd hwmem (by rw [hpv]; exact ha)]
    rfl

/-- C5 (amended): for every valid mesh and positive partition counts (product within `int`),
after `partitionMesh`, with the centroid coordinates as the program computes them in `double`
(`cellCentroid`): (1) if the id of cell `a` lies in an X-column before that of cell `b`
(column = id / numPartitionsY) then centroidX(a) ≤ centroidX(b); (2) if both ids lie in the
same X-column and the row of `a` is before the row of `b` (row = id % numPartitionsY) then
centroidY(a) ≤ centroidY(b). -/
theorem partitionMesh_spatial_coherence (sort : SortFn) (hs : SortContract sort)
    (numPartitionsX numPartitionsY : Nat) (serialMesh : SerialMesh)
    (partitionVector : List Nat) (hm : ValidMesh serialMesh) (hpx : 0 < numPartitionsX)
    (hpy : 0 < numPartitionsY) (hov : numPartitionsX * numPartitionsY ≤ INT_MAX)
    (hpv : partitionVector.length = serialMesh.c_numCells) :
    ∃ st, partitionMesh sort numPartitionsX numPartitionsY serialMesh partitionVector = some st ∧
      ∀ a b, a < serialMesh.c_numCells → b < serialMesh.c_numCells →
        ∃ ca cb, cellCentroid serialMesh a = some ca ∧ cellCentroid serialMesh b = some cb ∧
          (st.partitionVector.getD a 0 / numPartitionsY <
              st.partitionVector.getD b 0 / numPartitionsY →
            ca.coord 0 ≤ cb.coord 0) ∧
          (st.partitionVector.getD a 0 / numPartitionsY =
              st.partitionVector.getD b 0 / numPartitionsY →
            st.partitionVector.getD a 0 % numPartitionsY <
              st.partitionVector.getD b 0 % numPartitionsY →
            ca.coord 1 ≤ cb.coord 1) := by
  obtain ⟨hpxi, hpyi⟩ := le_INT_MAX_of_product _ _ hpx hpy hov
  refine ⟨_, partitionMesh_eq sort hs _ _ serialMesh partitionVector hm hpx hpy hpxi hpyi hpv,
    fun a b ha hb => ?_⟩
  obtain ⟨ia, ja, ca, hia, hja, hca, hcena, hpa⟩ :=
    cell_assignment sort hs _ _ serialMesh partitionVector hm hpx hpy hov hpv a ha
  obtain ⟨ib, jb, cb, hib, hjb, hcb, hcenb, hpb⟩ :=
    cell_assignment sort hs _ _ serialMesh partitionVector hm hpx hpy hov hpv b hb
  obtain ⟨⟨qa, hqa1, hqa2, hqa⟩, pa, hpa1, hpa2, hxa⟩ :=
    mem_block_column sort hs _ _ _ ia ja ca hca
  obtain ⟨⟨qb, hqb1, hqb2, hqb⟩, pb, hpb1, hpb2, hxb⟩ :=
    mem_block_column sort hs _ _ _ ib jb cb hcb
  refine ⟨ca, cb, hcena, hcenb, ?_, ?_⟩
  · simp only [hpa, hpb, part_div numPartitionsY hja, part_div numPartitionsY hjb]
    intro hlt
    have h1 : colStart numPartitionsX (xSorted sort serialMesh) (ia + 1) ≤
        colStart numPartitionsX (xSorted sort serialMesh) ib :=
      colStart_mono numPartitionsX (xSorted sort serialMesh) (by omega)
    have hsorted : (xSorted sort serialMesh).Pairwise (fun x y => compareX y x = false) :=
      hs.sorted _ _ compareX_strictWeak
    have := pairwise_getElem? hsorted hxa hxb (by omega)
    simpa [compareX] using this
  · simp only [hpa, hpb, part_div numPartitionsY hja, part_div numPartitionsY hjb,
      part_mod numPartitionsY hja, part_mod numPartitionsY hjb]
    intro heq hlt
    subst heq
    have h1 : rowStart numPartitionsX numPartitionsY (xSorted sort serialMesh) ia (ja + 1) ≤
        rowStart numPartitionsX numPartitionsY (xSorted sort serialMesh) ia jb :=
      rowStart_mono numPartitionsX numPartitionsY (xSorted sort serialMesh) ia (by omega)
    have hsorted : (sortedColumn sort numPartitionsX (xSorted sort serialMesh) ia).Pairwise
        (fun x y => compareY y x = false) := hs.sorted _ _ compareY_strictWeak
    have := pairwise_getElem? hsorted hqa hqb (by omega)
    simpa [compareY] using this

theorem partitionMesh_spatial_coherence_witness :
    ∃ st, partitionMesh insertionSort 2 2 cubeMesh (List.replicate 8 0) = some st ∧
      ∀ a b, a < cubeMesh.c_numCells → b < cubeMesh.c_numCells →
        ∃ ca cb, cellCentroid cubeMesh a = some ca ∧ cellCentroid cubeMesh b = some cb ∧
          (st.partitionVector.getD a 0 / 2 < st.partitionVector.getD b 0 / 2 →
            ca.coord 0 ≤ cb.coord 0) ∧
          (st.partitionVector.getD a 0 / 2 = st.partitionVector.getD b 0 / 2 →
            st.partitionVector.getD a 0 % 2 < st.partitionVector.getD b 0 % 2 →
            ca.coord 1 ≤ cb.coord 1) :=
  partitionMesh_spatial_coherence insertionSort insertionSort_contract 2 2 cubeMesh
    (List.replicate 8 0) cubeMesh_valid (by decide) (by decide) (by decide) (by decide)

/-! ### Partition id of a position -/

theorem mem_allWrites_of_mem_block (sort : SortFn) (px py : Nat) (xs : List Centroid)
    {i j : Nat} (hi : i < px) (hj : j < py) (c : Centroid)
    (hc : c ∈ block sort px py xs i j) :
    (c.cell, partitionId i py j) ∈ allWrites sort px py xs px := by
  refine List.mem_flatten.mpr ⟨columnWrites sort px py xs i py,
    List.mem_map.mpr ⟨i, List.mem_range.mpr hi, rfl⟩, ?_⟩
  refine List.mem_flatten.mpr ⟨blockWrites sort px py xs i j,
    List.mem_map.mpr ⟨j, List.mem_range.mpr hj, rfl⟩, ?_⟩
  exact List.mem_map.mpr ⟨c, hc, rfl⟩

theorem sortedColumns_position (sort : SortFn) (hs : SortContract sort) (px py : Nat)
    (xs : List Centroid) (hpx : 0 < px) (hpy : 0 < py) {i j pos : Nat} (hi : i < px)
    (hj : j < py) (c : Centroid) (hc : (sortedColumns sort px xs px)[pos]? = some c)
    (h1 : colStart px xs i ≤ pos)
    (h3 : rowStart px py xs i j ≤ pos - colStart px xs i)
    (h4 : pos - colStart px xs i < rowStart px py xs i (j + 1)) :
    c ∈ block sort px py xs i j := by
  have hrle : rowStart px py xs i (j + 1) ≤ colSize px xs i :=
    rowStart_le px py xs hpy i (by omega)
  have hpos : pos = colStart px xs i + (pos - colStart px xs i) := by omega
  rw [hpos, sortedColumns_getElem? sort hs px xs hpx hi (by omega)] at hc
  have hk : pos - colStart px xs i - rowStart px py xs i j <
      rowStart px py xs i (j + 1) - rowStart px py xs i j := by omega
  have := slice_getElem? (sortedColumn sort px xs i) (rowStart px py xs i j)
    (rowStart px py xs i (j + 1)) _ hk
  rw [show rowStart px py xs i j + (pos - colStart px xs i - rowStart px py xs i j) =
    pos - colStart px xs i by omega, hc] at this
  exact List.mem_iff_getElem?.mpr ⟨_, this⟩

/-- C11: for every valid mesh and positive partition counts (product within `int`), with
`bx = splitIntoChunks numCells numPartitionsX` and, for column `i`,
`by = splitIntoChunks (bx[i+1] - bx[i]) numPartitionsY`: if the final centroid sequence holds
at position `pos` the centroid of a cell, `bx[i] ≤ pos < bx[i+1]` and
`by[j] ≤ pos - bx[i] < by[j+1]`, then the output entry of that cell is
`i * numPartitionsY + j`. -/
theorem partitionMesh_id_formula (sort : SortFn) (hs : SortContract sort)
    (numPartitionsX numPartitionsY : Nat) (serialMesh : SerialMesh)
    (partitionVector : List Nat) (hm : ValidMesh serialMesh) (hpx : 0 < numPartitionsX)
    (hpy : 0 < numPartitionsY) (hov : numPartitionsX * numPartitionsY ≤ INT_MAX)
    (hpv : partitionVector.length = serialMesh.c_numCells) :
    ∃ st bx, partitionMesh sort numPartitionsX numPartitionsY serialMesh partitionVector
        = some st ∧
      splitIntoChunks serialMesh.c_numCells numPartitionsX = some bx ∧
      ∀ i, i < numPartitionsX →
        ∃ by_, splitIntoChunks (bx.getD (i + 1) 0 - bx.getD i 0) numPartitionsY = some by_ ∧
          ∀ j pos c, j < numPartitionsY → st.centroids[pos]? = some c →
            bx.getD i 0 ≤ pos → pos < bx.getD (i + 1) 0 →
            by_.getD j 0 ≤ pos - bx.getD i 0 → pos - bx.getD i 0 < by_.getD (j + 1) 0 →
            st.partitionVector[c.cell]? = some (i * numPartitionsY + j) := by
  obtain ⟨hpxi, hpyi⟩ := le_INT_MAX_of_product _ _ hpx hpy hov
  have hlen := xSorted_length sort hs serialMesh
  refine ⟨_, _,
    partitionMesh_eq sort hs _ _ serialMesh partitionVector hm hpx hpy hpxi hpyi hpv,
    splitIntoChunks_eq _ _ hm.1 (int_succ_lt_uint64 _ hpxi), fun i hi => ?_⟩
  have hb0 : (chunkBounds serialMesh.c_numCells numPartitionsX).getD i 0 =
      colStart numPartitionsX (xSorted sort serialMesh) i := by
    rw [chunkBounds_getD _ _ (Nat.le_of_lt hi), colStart, hlen]
  have hb1 : (chunkBounds serialMesh.c_numCells numPartitionsX).getD (i + 1) 0 =
      colStart numPartitionsX (xSorted sort serialMesh) (i + 1) := by
    rw [chunkBounds_getD _ _ hi, colStart, hlen]
  have hcle : colStart numPartitionsX (xSorted sort serialMesh) (i + 1) ≤
      serialMesh.c_numCells := by
    rw [← hlen]; exact colStart_le _ _ hpx (by omega)
  have hsz : colStart numPartitionsX (xSorted sort serialMesh) (i + 1) -
      colStart numPartitionsX (xSorted sort serialMesh) i < UINT64_MOD := by
    have := hm.1; omega
  rw [hb0, hb1]
  refine ⟨_, splitIntoChunks_eq _ _ hsz (int_succ_lt_uint64 _ hpyi), ?_⟩
  intro j pos c hj hc h1 _ h3 h4
  rw [chunkBounds_getD _ _ (Nat.le_of_lt hj)] at h3
  rw [chunkBounds_getD _ _ hj] at h4
  have hmem := sortedColumns_position sort hs _ _ _ hpx hpy hi hj c hc h1 h3 h4
  have hw := mem_allWrites_of_mem_block sort numPartitionsX numPartitionsY
    (xSorted sort serialMesh) hi hj c hmem
  rw [partitionId_eq_of_product _ _ hov hi hj] at hw
  have hperm := allWrites_fst_perm sort hs numPartitionsX numPartitionsY serialMesh hm hpx hpy
  have hnd := hperm.nodup_iff.mpr (List.nodup_range _)
  have hcell : c.cell < partitionVector.length := by
    have := hperm.subset (List.mem_map_of_mem Prod.fst hw)
    rw [hpv]
    simpa using this
  exact applyWrites_getElem?_of_mem _ partitionVector c.cell _ hnd hw hcell

theorem partitionMesh_id_formula_witness :
    ∃ st bx, partitionMesh insertionSort 2 2 cubeMesh (List.replicate 8 0) = some st ∧
      splitIntoChunks cubeMesh.c_numCells 2 = some bx ∧
      ∀ i, i < 2 →
        ∃ by_, splitIntoChunks (bx.getD (i + 1) 0 - bx.getD i 0) 2 = some by_ ∧
          ∀ j pos c, j < 2 → st.centroids[pos]? = some c →
            bx.getD i 0 ≤ pos → pos < bx.getD (i + 1) 0 →
            by_.getD j 0 ≤ pos - bx.getD i 0 → pos - bx.getD i 0 < by_.getD (j + 1) 0 →
            st.partitionVector[c.cell]? = some (i * 2 + j) :=
  partitionMesh_id_formula insertionSort insertionSort_contract 2 2 cubeMesh
    (List.replicate 8 0) cubeMesh_valid (by decide) (by decide) (by decide) (by decide)

/-! ### Global balance -/

theorem ceilDiv_of_dvd (n d : Nat) (hd : 0 < d) (h : d ∣ n) : ceilDiv n d = n / d := by
  obtain ⟨k, rfl⟩ := h
  unfold ceilDiv
  rw [Nat.mul_div_cancel_left k hd, show d * k + d - 1 = (d - 1) + d * k by omega,
    Nat.add_mul_div_left _ _ hd, Nat.div_eq_of_lt (by omega)]
  omega

theorem ceilDiv_of_not_dvd (n d : Nat) (hd : 0 < d) (h : ¬ d ∣ n) :
    ceilDiv n d = n / d + 1 := by
  have hr : 0 < n % d := Nat.pos_of_ne_zero (fun h0 => h (Nat.dvd_of_mod_eq_zero h0))
  have hlt : n % d < d := Nat.mod_lt n hd
  have hn := Nat.div_add_mod n d
  unfold ceilDiv
  have hsplit : n + d - 1 = (n % d - 1) + d * (n / d + 1) := by
    rw [Nat.mul_add, Nat.mul_one]; omega
  rw [hsplit, Nat.add_mul_div_left _ _ hd, Nat.div_eq_of_lt (by omega)]
  omega

/-- C12: for every valid mesh and positive partition counts (product within `int`), the
number of cells of every partition id below `numPartitionsX * numPartitionsY` is the floor
or the ceiling of `numCells / (numPartitionsX * numPartitionsY)`, so the cell counts of any
two partitions differ by at most 1. -/
theorem partitionMesh_global_balance (sort : SortFn) (hs : SortContract sort)
    (numPartitionsX numPartitionsY : Nat) (serialMesh : SerialMesh)
    (partitionVector : List Nat) (hm : ValidMesh serialMesh) (hpx : 0 < numPartitionsX)
    (hpy : 0 < numPartitionsY) (hov : numPartitionsX * numPartitionsY ≤ INT_MAX)
    (hpv : partitionVector.length = serialMesh.c_numCells) :
    ∃ st, partitionMesh sort numPartitionsX numPartitionsY serialMesh partitionVector = some st ∧
      (∀ p, p < numPartitionsX * numPartitionsY →
        st.partitionVector.count p =
            serialMesh.c_numCells / (numPartitionsX * numPartitionsY) ∨
          st.partitionVector.count p =
            ceilDiv serialMesh.c_numCells (numPartitionsX * numPartitionsY)) ∧
      (∀ p q, p < numPartitionsX * numPartitionsY → q < numPartitionsX * numPartitionsY →
        st.partitionVector.count p ≤ st.partitionVector.count q + 1) := by
  obtain ⟨hpxi, hpyi⟩ := le_INT_MAX_of_product _ _ hpx hpy hov
  have hlen := xSorted_length sort hs serialMesh
  have hd : 0 < numPartitionsX * numPartitionsY := Nat.mul_pos hpx hpy
  have hcount := assignment_count sort hs _ _ serialMesh partitionVector hm hpx hpy hov hpv
  have hbnd := fun p => rowSize_bounds numPartitionsX numPartitionsY (xSorted sort serialMesh)
    (p / numPartitionsY) (p % numPartitionsY)
  rw [hlen] at hbnd
  refine ⟨_, partitionMesh_eq sort hs _ _ serialMesh partitionVector hm hpx hpy hpxi hpyi hpv,
    fun p hp => ?_, fun p q hp hq => ?_⟩
  · simp only [hcount p hp]
    by_cases hdvd : numPartitionsX * numPartitionsY ∣ serialMesh.c_numCells
    · left
      rw [rowSize_of_dvd _ _ _ _ _ hpx (by rw [hlen]; exact hdvd), hlen]
    · rw [ceilDiv_of_not_dvd _ _ hd hdvd]
      have := hbnd p
      omega
  · simp only [hcount p hp, hcount q hq]
    have h1 := hbnd p
    have h2 := hbnd q
    omega

theorem partitionMesh_global_balance_witness :
    ∃ st, partitionMesh insertionSort 3 1 lineMesh (List.replicate 10 0) = some st ∧
      (∀ p, p < 3 * 1 →
        st.partitionVector.count p = lineMesh.c_numCells / (3 * 1) ∨
          st.partitionVector.count p = ceilDiv lineMesh.c_numCells (3 * 1)) ∧
      (∀ p q, p < 3 * 1 → q < 3 * 1 →
        st.partitionVector.count p ≤ st.partitionVector.count q + 1) :=
  partitionMesh_global_balance insertionSort insertionSort_contract 3 1 lineMesh
    (List.replicate 10 0) lineMesh_valid (by decide) (by decide) (by decide) (by decide)

/-! ### Index safety -/

/-- C13: for positive `int` partition counts, a valid mesh and an output vector of length
`numCells`, `partitionMesh` returns, so no access of the model leaves its vector; in
particular `chunksX[i+1] ≤ centroids.size()` for `i < numPartitionsX`; for
`j < numPartitionsY` the entries `chunksY[i][j]` and `chunksY[i][j+1]` exist,
`chunksY[i][j] ≤ chunksY[i][j+1]` (the subtraction does not underflow) and
`chunksX[i] + chunksY[i][j] + k < centroids.size()` for every `k` below their difference;
and every written cell index is below `partitionVector.size()`. -/
theorem partitionMesh_index_safety (sort : SortFn) (hs : SortContract sort)
    (numPartitionsX numPartitionsY : Nat) (serialMesh : SerialMesh)
    (partitionVector : List Nat) (hm : ValidMesh serialMesh) (hpx : 0 < numPartitionsX)
    (hpy : 0 < numPartitionsY) (hpxi : numPartitionsX ≤ INT_MAX)
    (hpyi : numPartitionsY ≤ INT_MAX)
    (hpv : partitionVector.length = serialMesh.c_numCells) :
    ∃ st, partitionMesh sort numPartitionsX numPartitionsY serialMesh partitionVector = some st ∧
      st.centroids.length = serialMesh.c_numCells ∧
      st.partitionVector.length = partitionVector.length ∧
      (∀ i, i < numPartitionsX →
        ∃ xb xe, st.chunksX[i]? = some xb ∧ st.chunksX[i + 1]? = some xe ∧
          xb ≤ xe ∧ xe ≤ st.centroids.length ∧
          ∀ j, j < numPartitionsY →
            ∃ row lo hi, st.chunksY[i]? = some row ∧ row[j]? = some lo ∧
              row[j + 1]? = some hi ∧ lo ≤ hi ∧
              ∀ k, k < hi - lo → xb + lo + k < st.centroids.length) ∧
      (∀ w ∈ st.writes, w.1 < partitionVector.length) := by
  have hlen := xSorted_length sort hs serialMesh
  have hclen : (sortedColumns sort numPartitionsX (xSorted sort serialMesh)
      numPartitionsX).length = serialMesh.c_numCells := by
    rw [(sortedColumns_perm_all sort hs _ _ hpx).length_eq, hlen]
  refine ⟨_, partitionMesh_eq sort hs _ _ serialMesh partitionVector hm hpx hpy hpxi hpyi hpv,
    hclen, applyWrites_length _ _, fun i hi => ?_, fun w hw => ?_⟩
  · have hmono := colStart_mono numPartitionsX (xSorted sort serialMesh)
      (Nat.le_add_right i 1)
    have hcle : colStart numPartitionsX (xSorted sort serialMesh) (i + 1) ≤
        (xSorted sort serialMesh).length := colStart_le _ _ hpx (by omega)
    have hcs := colStart_add_colSize numPartitionsX (xSorted sort serialMesh) i
    refine ⟨colStart numPartitionsX (xSorted sort serialMesh) i,
      colStart numPartitionsX (xSorted sort serialMesh) (i + 1), ?_, ?_, hmono, ?_,
      fun j hj => ?_⟩
    · simp only []
      rw [chunkBounds_getElem? _ _ (Nat.le_of_lt hi), colStart, hlen]
    · simp only []
      rw [chunkBounds_getElem? _ _ hi, colStart, hlen]
    · simp only [hclen]; omega
    · have hrmono := rowStart_mono numPartitionsX numPartitionsY (xSorted sort serialMesh) i
        (Nat.le_add_right j 1)
      have hrle : rowStart numPartitionsX numPartitionsY (xSorted sort serialMesh) i (j + 1) ≤
          colSize numPartitionsX (xSorted sort serialMesh) i :=
        rowStart_le _ _ _ hpy i (by omega)
      refine ⟨chunkBounds (colSize numPartitionsX (xSorted sort serialMesh) i) numPartitionsY,
        rowStart numPartitionsX numPartitionsY (xSorted sort serialMesh) i j,
        rowStart numPartitionsX numPartitionsY (xSorted sort serialMesh) i (j + 1),
        by simp [rowBounds, List.getElem?_range hi],
        chunkBounds_getElem? _ _ (Nat.le_of_lt hj), chunkBounds_getElem? _ _ hj, hrmono,
        fun k hk => ?_⟩
      simp only [hclen]
      omega
  · have hperm := allWrites_fst_perm sort hs numPartitionsX numPartitionsY serialMesh hm hpx hpy
    have := hperm.subset (List.mem_map_of_mem Prod.fst hw)
    rw [hpv]
    simpa using this

theorem partitionMesh_index_safety_witness :
    ∃ st, partitionMesh insertionSort 2 2 cubeMesh (List.replicate 8 0) = some st ∧
      st.centroids.length = cubeMesh.c_numCells ∧
      st.partitionVector.length = (List.replicate 8 0).length ∧
      (∀ i, i < 2 →
        ∃ xb xe, st.chunksX[i]? = some xb ∧ st.chunksX[i + 1]? = some xe ∧
          xb ≤ xe ∧ xe ≤ st.centroids.length ∧
          ∀ j, j < 2 →
            ∃ row lo hi, st.chunksY[i]? = some row ∧ row[j]? = some lo ∧
              row[j + 1]? = some hi ∧ lo ≤ hi ∧
              ∀ k, k < hi - lo → xb + lo + k < st.centroids.length) ∧
      (∀ w ∈ st.writes, w.1 < (List.replicate 8 0).length) :=
  partitionMesh_index_safety insertionSort insertionSort_contract 2 2 cubeMesh
    (List.replicate 8 0) cubeMesh_valid (by decide) (by decide) (by decide) (by decide)
    (by decide)

/-! ### Double rounding -/

theorem roundHalfEven_intCast (z : ℤ) : roundHalfEven (z : ℚ) = z := by
  simp [roundHalfEven]

theorem ulpExponent_le (m e : ℤ) (hm0 : m ≠ 0) (hm : |m| < 2 ^ 53) (he : -1074 ≤ e) :
    ulpExponent ((m : ℚ) * 2 ^ e) ≤ e := by
  have hpos : (0 : ℚ) < |(m : ℚ) * 2 ^ e| :=
    abs_pos.mpr (mul_ne_zero (Int.cast_ne_zero.mpr hm0) (zpow_ne_zero _ (by norm_num)))
  have hlt : |(m : ℚ) * 2 ^ e| < ((2 : ℕ) : ℚ) ^ (53 + e) := by
    rw [abs_mul, abs_of_pos (zpow_pos (by norm_num : (0 : ℚ) < 2) e),
      zpow_add₀ (by norm_num : ((2 : ℕ) : ℚ) ≠ 0)]
    have h1 : |(m : ℚ)| < ((2 : ℕ) : ℚ) ^ (53 : ℤ) := by
      have : ((|m| : ℤ) : ℚ) < ((2 ^ 53 : ℤ) : ℚ) := Int.cast_lt.mpr hm
      rw [Int.cast_abs] at this
      norm_num at this ⊢
      exact this
    have h2 : (0 : ℚ) < (2 : ℚ) ^ e := zpow_pos (by norm_num) e
    push_cast
    exact mul_lt_mul_of_pos_right (by exact_mod_cast h1) h2
  have hlog := (Int.lt_zpow_iff_log_lt (by norm_num : 1 < 2) hpos).mp hlt
  unfold ulpExponent
  omega

theorem roundDouble_of_representable (m e : ℤ) (hm : |m| < 2 ^ 53) (he : -1074 ≤ e)
    (hmax : |(m : ℚ) * 2 ^ e| < 2 ^ (1024 : ℤ)) :
    roundDouble ((m : ℚ) * 2 ^ e) = Double.ofRat ((m : ℚ) * 2 ^ e) := by
  have key : ((roundHalfEven ((m : ℚ) * 2 ^ e / 2 ^ ulpExponent ((m : ℚ) * 2 ^ e)) : ℤ) : ℚ) *
      2 ^ ulpExponent ((m : ℚ) * 2 ^ e) = (m : ℚ) * 2 ^ e := by
    rcases eq_or_ne m 0 with rfl | hm0
    · simp [roundHalfEven]
    · have hg := ulpExponent_le m e hm0 hm he
      set g := ulpExponent ((m : ℚ) * 2 ^ e)
      obtain ⟨k, hk⟩ : ∃ k : ℕ, e = g + k := ⟨(e - g).toNat, by omega⟩
      have h2 : (2 : ℚ) ^ g ≠ 0 := zpow_ne_zero _ (by norm_num)
      have hq : (m : ℚ) * 2 ^ e / 2 ^ g = ((m * 2 ^ k : ℤ) : ℚ) := by
        rw [hk, zpow_add₀ (by norm_num : (2 : ℚ) ≠ 0), zpow_natCast]
        push_cast
        field_simp
        ring
      rw [hq, roundHalfEven_intCast, hk, zpow_add₀ (by norm_num : (2 : ℚ) ≠ 0), zpow_natCast]
      push_cast
      ring
  unfold roundDouble
  simp only [key]
  rw [if_neg (not_le.mpr hmax)]

theorem ulpExponent_tie : ulpExponent (2 ^ 53 + 1) = 1 := by
  have h : Int.log 2 |((2 : ℚ) ^ 53 + 1)| = 53 := by
    rw [abs_of_pos (by positivity)]
    have hcast : ((2 : ℚ) ^ 53 + 1) = ((2 ^ 53 + 1 : ℕ) : ℚ) := by norm_num
    rw [hcast, Int.log_natCast,
      Nat.log_eq_of_pow_le_of_lt_pow (by norm_num) (by norm_num : 2 ^ 53 + 1 < 2 ^ (53 + 1))]
    rfl
  unfold ulpExponent
  rw [h]
  rfl

theorem roundDouble_tie : roundDouble (2 ^ 53 + 1) = Double.ofRat (2 ^ 53) := by
  have hfloor : ⌊((2 : ℚ) ^ 53 + 1) / 2 ^ (1 : ℤ)⌋ = 2 ^ 52 := by
    rw [Int.floor_eq_iff]
    constructor <;> norm_num
  have hround : roundHalfEven (((2 : ℚ) ^ 53 + 1) / 2 ^ (1 : ℤ)) = 2 ^ 52 := by
    unfold roundHalfEven
    rw [hfloor]
    norm_num
  unfold roundDouble
  simp only [ulpExponent_tie, hround]
  norm_num

/-! ### The centroid vector -/

theorem cellCentroid_eq (m : SerialMesh) (c : Nat) (cd : CellData) (n0 n1 n2 n3 : NodeData)
    (hcd : m.c_cellData[c]? = some cd)
    (h0 : m.c_nodeData[cd.boundingNodes 0]? = some n0)
    (h1 : m.c_nodeData[cd.boundingNodes 1]? = some n1)
    (h2 : m.c_nodeData[cd.boundingNodes 2]? = some n2)
    (h3 : m.c_nodeData[cd.boundingNodes 3]? = some n3) :
    cellCentroid m c = some
      { cell := c
        coord := fun d => div4Double (addDouble (addDouble (addDouble (addDouble
          (Double.ofRat 0) (nearestDouble (n0.coords d))) (nearestDouble (n1.coords d)))
          (nearestDouble (n2.coords d))) (nearestDouble (n3.coords d))) } := by
  simp [cellCentroid, hcd, h0, h1, h2, h3, List.foldlM]

theorem nearestDouble_of_representable (q : ℚ) (h : roundDouble q = Double.ofRat q) :
    nearestDouble q = q := by
  unfold nearestDouble
  rw [h]
  rfl

theorem addDouble_ofRat (v x : ℚ) : addDouble (Double.ofRat v) x = roundDouble (v + x) := rfl

theorem div4Double_ofRat (v : ℚ) : div4Double (Double.ofRat v) = roundDouble (v / 4) := rfl

theorem ofRat_injective {a b : ℚ} (h : Double.ofRat a = Double.ofRat b) : a = b := by
  simpa [Double.ofRat] using h

theorem ofRat_lt_ofRat {a b : ℚ} : Double.ofRat a < Double.ofRat b ↔ a < b := by
  simp [Double.ofRat]

theorem roundHalfEven_abs_sub_le (q : ℚ) : |(roundHalfEven q : ℚ) - q| ≤ 1 / 2 := by
  have h1 := Int.floor_le q
  have h2 := Int.lt_floor_add_one q
  unfold roundHalfEven
  split_ifs with a b c
  · rw [abs_le]; constructor <;> linarith
  · rw [abs_le]; push_cast; constructor <;> linarith
  · rw [abs_le]; constructor <;> linarith
  · rw [abs_le]; push_cast; constructor <;> linarith

theorem roundDouble_error (q r : ℚ) (h : roundDouble q = Double.ofRat r) :
    |r - q| ≤ 2 ^ ulpExponent q / 2 := by
  have hu : (0 : ℚ) < 2 ^ ulpExponent q := zpow_pos (by norm_num) _
  unfold roundDouble at h
  simp only at h
  split_ifs at h with hov hq
  · exact absurd h (by simp [Double.ofRat])
  · exact absurd h (by simp [Double.ofRat])
  · rw [← ofRat_injective h]
    have hb := roundHalfEven_abs_sub_le (q / 2 ^ ulpExponent q)
    have he : (roundHalfEven (q / 2 ^ ulpExponent q) : ℚ) * 2 ^ ulpExponent q - q =
        ((roundHalfEven (q / 2 ^ ulpExponent q) : ℚ) - q / 2 ^ ulpExponent q) *
          2 ^ ulpExponent q := by
      field_simp
    rw [he, abs_mul, abs_of_pos hu]
    calc |(roundHalfEven (q / 2 ^ ulpExponent q) : ℚ) - q / 2 ^ ulpExponent q| *
          2 ^ ulpExponent q ≤ 1 / 2 * 2 ^ ulpExponent q :=
          mul_le_mul_of_nonneg_right hb hu.le
      _ = 2 ^ ulpExponent q / 2 := by ring

/-! ### Ranks in strictly sorted sequences -/

theorem countP_lt_of_strictSorted {α : Type} (f : α → Double) (l : List α)
    (h : l.Pairwise (fun a b => f a < f b)) (p : Nat) (a : α) (hp : l[p]? = some a) :
    l.countP (fun d => decide (f d < f a)) = p := by
  induction l generalizing p with
  | nil => simp at hp
  | cons x t ih =>
    obtain ⟨hx, ht⟩ := List.pairwise_cons.mp h
    cases p with
    | zero =>
      have hxa : x = a := by simpa using hp
      subst hxa
      rw [List.countP_cons_of_neg _ _ (by simp)]
      exact List.countP_eq_zero.mpr (fun b hb => by
        simp only [decide_eq_true_eq, not_lt]
        exact le_of_lt (hx b hb))
    | succ q =>
      have hq : t[q]? = some a := by simpa using hp
      have hmem : a ∈ t := List.mem_iff_getElem?.mpr ⟨q, hq⟩
      rw [List.countP_cons_of_pos _ _ (by simpa using hx a hmem), ih ht q hq]

theorem slice_zero {α : Type} (l : List α) (b : Nat) : slice l 0 b = l.take b := by
  simp [slice]

theorem slice_split {α : Type} (l : List α) {b e : Nat} (hbe : b ≤ e) :
    l = slice l 0 b ++ slice l b e ++ slice l e l.length := by
  rw [slice_zero, take_append_slice l hbe]
  rcases Nat.le_total e l.length with h | h
  · rw [take_append_slice l h, List.take_length]
  · simp [slice, List.take_of_length_le h, List.drop_of_length_le h]

theorem countP_rank_range {α : Type} (l : List α) (r : α → Nat)
    (hr : ∀ p d, l[p]? = some d → r d = p) (b e : Nat) (Q : α → Bool) :
    l.countP (fun d => decide (b ≤ r d ∧ r d < e) && Q d) = (slice l b e).countP Q := by
  rcases Nat.lt_or_ge e b with hlt | hbe
  · have h1 : (slice l b e) = [] := by simp [slice, Nat.sub_eq_zero_of_le (Nat.le_of_lt hlt)]
    rw [h1]
    exact List.countP_eq_zero.mpr (fun d _ => by simp; intro; omega)
  · conv_lhs => rw [slice_split l hbe]
    rw [List.countP_append, List.countP_append]
    have h0 : (slice l 0 b).countP (fun d => decide (b ≤ r d ∧ r d < e) && Q d) = 0 :=
      List.countP_eq_zero.mpr (fun d hd => by
        obtain ⟨p, _, hp, hget⟩ := mem_slice l 0 b d hd
        have := hr p d hget
        simp; intro; omega)
    have h2 : (slice l e l.length).countP (fun d => decide (b ≤ r d ∧ r d < e) && Q d) = 0 :=
      List.countP_eq_zero.mpr (fun d hd => by
        obtain ⟨p, hp, _, hget⟩ := mem_slice l e l.length d hd
        have := hr p d hget
        simp; intro; omega)
    have h1 : (slice l b e).countP (fun d => decide (b ≤ r d ∧ r d < e) && Q d) =
        (slice l b e).countP Q :=
      List.countP_congr (fun d hd => by
        obtain ⟨p, hp1, hp2, hget⟩ := mem_slice l b e d hd
        have := hr p d hget
        simp; intro; omega)
    rw [h0, h1, h2]
    omega

theorem chunkStart_interval_unique (size n : Nat) {i k p : Nat}
    (hi1 : chunkStart size n i ≤ p) (hi2 : p < chunkStart size n (i + 1))
    (hk1 : chunkStart size n k ≤ p) (hk2 : p < chunkStart size n (k + 1)) : i = k := by
  rcases Nat.lt_trichotomy i k with h | h | h
  · have := chunkStart_mono size n (show i + 1 ≤ k by omega)
    omega
  · exact h
  · have := chunkStart_mono size n (show k + 1 ≤ i by omega)
    omega

/-! ### Ranks of the centroids -/

theorem meshCentroids_distinct (m : SerialMesh) (hm : ValidMesh m) (d : Fin 3)
    (hd : ∀ a b ca cb, cellCentroid m a = some ca → cellCentroid m b = some cb →
      ca.coord d = cb.coord d → a = b) :
    (meshCentroids m).Pairwise (fun a b => a.coord d ≠ b.coord d) := by
  rw [List.pairwise_iff_getElem]
  intro i j hi hj hij heq
  rw [meshCentroids_length] at hi hj
  have h1 := meshCentroids_getElem? m hm i hi
  have h2 := meshCentroids_getElem? m hm j hj
  rw [List.getElem?_eq_getElem (by rw [meshCentroids_length]; exact hi)] at h1
  rw [List.getElem?_eq_getElem (by rw [meshCentroids_length]; exact hj)] at h2
  have := hd i j _ _ h1.symm h2.symm heq
  omega

theorem xSorted_strict (sort : SortFn) (hs : SortContract sort) (m : SerialMesh)
    (hm : ValidMesh m)
    (hX : ∀ a b ca cb, cellCentroid m a = some ca → cellCentroid m b = some cb →
      ca.coord 0 = cb.coord 0 → a = b) :
    (xSorted sort m).Pairwise (fun a b => a.coord 0 < b.coord 0) := by
  have h1 : (xSorted sort m).Pairwise (fun a b => compareX b a = false) :=
    hs.sorted _ _ compareX_strictWeak
  have h2 : (xSorted sort m).Pairwise (fun a b => a.coord 0 ≠ b.coord 0) :=
    ((xSorted_perm sort hs m).pairwise_iff (fun h => Ne.symm h)).mpr
      (meshCentroids_distinct m hm 0 hX)
  refine (h1.and h2).imp ?_
  intro a b hab
  have hle : a.coord 0 ≤ b.coord 0 := by simpa [compareX] using hab.1
  exact lt_of_le_of_ne hle hab.2

theorem sortedColumn_strict (sort : SortFn) (hs : SortContract sort) (px : Nat)
    (m : SerialMesh) (hm : ValidMesh m)
    (hY : ∀ a b ca cb, cellCentroid m a = some ca → cellCentroid m b = some cb →
      ca.coord 1 = cb.coord 1 → a = b) (i : Nat) :
    (sortedColumn sort px (xSorted sort m) i).Pairwise (fun a b => a.coord 1 < b.coord 1) := by
  have h1 : (sortedColumn sort px (xSorted sort m) i).Pairwise
      (fun a b => compareY b a = false) := hs.sorted _ _ compareY_strictWeak
  have hxs : (xSorted sort m).Pairwise (fun a b => a.coord 1 ≠ b.coord 1) :=
    ((xSorted_perm sort hs m).pairwise_iff (fun h => Ne.symm h)).mpr
      (meshCentroids_distinct m hm 1 hY)
  have hsl : (slice (xSorted sort m) (colStart px (xSorted sort m) i)
      (colStart px (xSorted sort m) (i + 1))).Pairwise (fun a b => a.coord 1 ≠ b.coord 1) :=
    hxs.sublist ((List.take_sublist _ _).trans (List.drop_sublist _ _))
  have h2 := ((sortedColumn_perm sort hs px (xSorted sort m) i).pairwise_iff
    (fun h => Ne.symm h)).mpr hsl
  refine (h1.and h2).imp ?_
  intro a b hab
  have hle : a.coord 1 ≤ b.coord 1 := by simpa [compareY] using hab.1
  exact lt_of_le_of_ne hle hab.2

theorem rankX_xSorted (sort : SortFn) (hs : SortContract sort) (m : SerialMesh)
    (hm : ValidMesh m)
    (hX : ∀ a b ca cb, cellCentroid m a = some ca → cellCentroid m b = some cb →
      ca.coord 0 = cb.coord 0 → a = b)
    (p : Nat) (c : Centroid) (hp : (xSorted sort m)[p]? = some c) : rankX m c = p := by
  unfold rankX
  rw [← (xSorted_perm sort hs m).countP_eq]
  exact countP_lt_of_strictSorted (fun c => c.coord 0) _ (xSorted_strict sort hs m hm hX) p c hp

theorem colStart_xSorted (sort : SortFn) (hs : SortContract sort) (px : Nat) (m : SerialMesh)
    (i : Nat) : colStart px (xSorted sort m) i = chunkStart m.c_numCells px i := by
  rw [colStart, xSorted_length sort hs m]

theorem rowStart_xSorted (sort : SortFn) (hs : SortContract sort) (px py : Nat)
    (m : SerialMesh) (i j : Nat) :
    rowStart px py (xSorted sort m) i j =
      chunkStart (chunkStart m.c_numCells px (i + 1) - chunkStart m.c_numCells px i) py j := by
  rw [rowStart, colSize, colStart_xSorted sort hs, colStart_xSorted sort hs]

theorem rankYInColumn_sortedColumn (sort : SortFn) (hs : SortContract sort) (px : Nat)
    (m : SerialMesh) (hm : ValidMesh m)
    (hX : ∀ a b ca cb, cellCentroid m a = some ca → cellCentroid m b = some cb →
      ca.coord 0 = cb.coord 0 → a = b)
    (hY : ∀ a b ca cb, cellCentroid m a = some ca → cellCentroid m b = some cb →
      ca.coord 1 = cb.coord 1 → a = b)
    {i : Nat} (hi : i < px) (q : Nat) (c : Centroid)
    (hq : (sortedColumn sort px (xSorted sort m) i)[q]? = some c) :
    rankYInColumn m (chunkBounds m.c_numCells px) i c = q := by
  unfold rankYInColumn
  rw [← (xSorted_perm sort hs m).countP_eq]
  have hfun : (fun d => inRankColumn m (chunkBounds m.c_numCells px) i d &&
      decide (d.coord 1 < c.coord 1)) =
      (fun d => decide (colStart px (xSorted sort m) i ≤ rankX m d ∧
        rankX m d < colStart px (xSorted sort m) (i + 1)) && decide (d.coord 1 < c.coord 1)) := by
    funext d
    rw [inRankColumn, chunkBounds_getD _ _ (Nat.le_of_lt hi), chunkBounds_getD _ _ hi,
      colStart_xSorted sort hs, colStart_xSorted sort hs]
  rw [hfun, countP_rank_range (xSorted sort m) (rankX m)
    (fun p d hp => rankX_xSorted sort hs m hm hX p d hp),
    ← (sortedColumn_perm sort hs px (xSorted sort m) i).countP_eq]
  exact countP_lt_of_strictSorted (fun c => c.coord 1) _
    (sortedColumn_strict sort hs px m hm hY i) q c hq

theorem cell_rank_assignment (sort : SortFn) (hs : SortContract sort) (px py : Nat)
    (m : SerialMesh) (pv : List Nat) (hm : ValidMesh m) (hpx : 0 < px) (hpy : 0 < py)
    (hov : px * py ≤ INT_MAX) (hpv : pv.length = m.c_numCells)
    (hX : ∀ a b ca cb, cellCentroid m a = some ca → cellCentroid m b = some cb →
      ca.coord 0 = cb.coord 0 → a = b)
    (hY : ∀ a b ca cb, cellCentroid m a = some ca → cellCentroid m b = some cb →
      ca.coord 1 = cb.coord 1 → a = b)
    (c : Nat) (hc : c < m.c_numCells) :
    ∃ i j ce, i < px ∧ j < py ∧ cellCentroid m c = some ce ∧
      (applyWrites pv (allWrites sort px py (xSorted sort m) px)).getD c 0 = i * py + j ∧
      chunkStart m.c_numCells px i ≤ rankX m ce ∧
      rankX m ce < chunkStart m.c_numCells px (i + 1) ∧
      chunkStart (chunkStart m.c_numCells px (i + 1) - chunkStart m.c_numCells px i) py j ≤
        rankYInColumn m (chunkBounds m.c_numCells px) i ce ∧
      rankYInColumn m (chunkBounds m.c_numCells px) i ce <
        chunkStart (chunkStart m.c_numCells px (i + 1) - chunkStart m.c_numCells px i) py
          (j + 1) := by
  obtain ⟨i, j, ce, hi, hj, hmem, hcen, hval⟩ :=
    cell_assignment sort hs px py m pv hm hpx hpy hov hpv c hc
  obtain ⟨⟨q, hq1, hq2, hq⟩, p, hp1, hp2, hp⟩ := mem_block_column sort hs px py _ i j ce hmem
  have hrx := rankX_xSorted sort hs m hm hX p ce hp
  have hry := rankYInColumn_sortedColumn sort hs px m hm hX hY hi q ce hq
  rw [colStart_xSorted sort hs] at hp1 hp2
  rw [rowStart_xSorted sort hs] at hq1 hq2
  exact ⟨i, j, ce, hi, hj, hcen, hval, by omega, by omega, by omega, by omega⟩

theorem rank_assignment_unique (px py : Nat) (m : SerialMesh) {i j i2 j2 : Nat} (ce : Centroid)
    (h1 : chunkStart m.c_numCells px i ≤ rankX m ce)
    (h2 : rankX m ce < chunkStart m.c_numCells px (i + 1))
    (h3 : chunkStart (chunkStart m.c_numCells px (i + 1) - chunkStart m.c_numCells px i) py j ≤
      rankYInColumn m (chunkBounds m.c_numCells px) i ce)
    (h4 : rankYInColumn m (chunkBounds m.c_numCells px) i ce <
      chunkStart (chunkStart m.c_numCells px (i + 1) - chunkStart m.c_numCells px i) py (j + 1))
    (k1 : chunkStart m.c_numCells px i2 ≤ rankX m ce)
    (k2 : rankX m ce < chunkStart m.c_numCells px (i2 + 1))
    (k3 : chunkStart (chunkStart m.c_numCells px (i2 + 1) - chunkStart m.c_numCells px i2) py
      j2 ≤ rankYInColumn m (chunkBounds m.c_numCells px) i2 ce)
    (k4 : rankYInColumn m (chunkBounds m.c_numCells px) i2 ce <
      chunkStart (chunkStart m.c_numCells px (i2 + 1) - chunkStart m.c_numCells px i2) py
        (j2 + 1)) : i = i2 ∧ j = j2 := by
  have hi := chunkStart_interval_unique _ _ h1 h2 k1 k2
  subst hi
  exact ⟨rfl, chunkStart_interval_unique _ _ h3 h4 k3 k4⟩

theorem rank_reference (sort : SortFn) (hs : SortContract sort) (px py : Nat)
    (m : SerialMesh) (pv : List Nat) (hm : ValidMesh m) (hpx : 0 < px) (hpy : 0 < py)
    (hov : px * py ≤ INT_MAX) (hpv : pv.length = m.c_numCells)
    (hX : ∀ a b ca cb, cellCentroid m a = some ca → cellCentroid m b = some cb →
      ca.coord 0 = cb.coord 0 → a = b)
    (hY : ∀ a b ca cb, cellCentroid m a = some ca → cellCentroid m b = some cb →
      ca.coord 1 = cb.coord 1 → a = b)
    (c : Nat) (hc : c < m.c_numCells) :
    ∃ ce, cellCentroid m c = some ce ∧ ∀ i, i < px →
      ((applyWrites pv (allWrites sort px py (xSorted sort m) px)).getD c 0 / py = i ↔
        inRankColumn m (chunkBounds m.c_numCells px) i ce = true) ∧
      ∀ j, j < py →
        ((applyWrites pv (allWrites sort px py (xSorted sort m) px)).getD c 0 / py = i ∧
          (applyWrites pv (allWrites sort px py (xSorted sort m) px)).getD c 0 % py = j ↔
        inRankColumn m (chunkBounds m.c_numCells px) i ce = true ∧
          inRankRow m (chunkBounds m.c_numCells px)
            (chunkBounds (chunkStart m.c_numCells px (i + 1) - chunkStart m.c_numCells px i) py)
            i j ce = true) := by
  obtain ⟨i0, j0, ce, hi0, hj0, hcen, hval, h1, h2, h3, h4⟩ :=
    cell_rank_assignment sort hs px py m pv hm hpx hpy hov hpv hX hY c hc
  refine ⟨ce, hcen, fun i hi => ?_⟩
  have hcol : inRankColumn m (chunkBounds m.c_numCells px) i ce = true ↔
      chunkStart m.c_numCells px i ≤ rankX m ce ∧
        rankX m ce < chunkStart m.c_numCells px (i + 1) := by
    rw [inRankColumn, chunkBounds_getD _ _ (Nat.le_of_lt hi), chunkBounds_getD _ _ hi,
      decide_eq_true_iff]
  rw [hval, part_div py hj0, part_mod py hj0, hcol]
  refine ⟨⟨fun h => by subst h; exact ⟨h1, h2⟩,
    fun h => chunkStart_interval_unique _ _ h1 h2 h.1 h.2⟩, fun j hj => ?_⟩
  have hrow : inRankRow m (chunkBounds m.c_numCells px)
      (chunkBounds (chunkStart m.c_numCells px (i + 1) - chunkStart m.c_numCells px i) py)
      i j ce = true ↔
      chunkStart (chunkStart m.c_numCells px (i + 1) - chunkStart m.c_numCells px i) py j ≤
        rankYInColumn m (chunkBounds m.c_numCells px) i ce ∧
      rankYInColumn m (chunkBounds m.c_numCells px) i ce <
        chunkStart (chunkStart m.c_numCells px (i + 1) - chunkStart m.c_numCells px i) py
          (j + 1) := by
    rw [inRankRow, chunkBounds_getD _ _ (Nat.le_of_lt hj), chunkBounds_getD _ _ hj,
      decide_eq_true_iff]
  rw [hrow]
  constructor
  · rintro ⟨rfl, rfl⟩
    exact ⟨⟨h1, h2⟩, h3, h4⟩
  · rintro ⟨⟨k1, k2⟩, k3, k4⟩
    exact rank_assignment_unique px py m ce h1 h2 h3 h4 k1 k2 k3 k4

theorem assignment_sort_independent (sort sort2 : SortFn) (hs : SortContract sort)
    (hs2 : SortContract sort2) (px py : Nat) (m : SerialMesh) (pv : List Nat)
    (hm : ValidMesh m) (hpx : 0 < px) (hpy : 0 < py) (hov : px * py ≤ INT_MAX)
    (hpv : pv.length = m.c_numCells)
    (hX : ∀ a b ca cb, cellCentroid m a = some ca → cellCentroid m b = some cb →
      ca.coord 0 = cb.coord 0 → a = b)
    (hY : ∀ a b ca cb, cellCentroid m a = some ca → cellCentroid m b = some cb →
      ca.coord 1 = cb.coord 1 → a = b) :
    applyWrites pv (allWrites sort2 px py (xSorted sort2 m) px) =
      applyWrites pv (allWrites sort px py (xSorted sort m) px) := by
  apply List.ext_getElem?
  intro c
  rcases Nat.lt_or_ge c m.c_numCells with hc | hc
  · obtain ⟨i, j, ce, _, _, hcen, hval, h1, h2, h3, h4⟩ :=
      cell_rank_assignment sort hs px py m pv hm hpx hpy hov hpv hX hY c hc
    obtain ⟨i2, j2, ce2, _, _, hcen2, hval2, k1, k2, k3, k4⟩ :=
      cell_rank_assignment sort2 hs2 px py m pv hm hpx hpy hov hpv hX hY c hc
    have hce : ce2 = ce := Option.some.inj (hcen2.symm.trans hcen)
    subst hce
    obtain ⟨rfl, rfl⟩ := rank_assignment_unique px py m ce2 h1 h2 h3 h4 k1 k2 k3 k4
    have hl1 : c < (applyWrites pv (allWrites sort px py (xSorted sort m) px)).length := by
      rw [applyWrites_length, hpv]; exact hc
    have hl2 : c < (applyWrites pv (allWrites sort2 px py (xSorted sort2 m) px)).length := by
      rw [applyWrites_length, hpv]; exact hc
    rw [List.getD_eq_getElem?_getD, List.getElem?_eq_getElem hl1] at hval
    rw [List.getD_eq_getElem?_getD, List.getElem?_eq_getElem hl2] at hval2
    rw [List.getElem?_eq_getElem hl1, List.getElem?_eq_getElem hl2]
    simp only [Option.getD_some] at hval hval2
    rw [hval, hval2]
  · rw [List.getElem?_eq_none (by rw [applyWrites_length, hpv]; exact hc),
      List.getElem?_eq_none (by rw [applyWrites_length, hpv]; exact hc)]

/-! ### The rounding mesh -/

theorem roundingMesh_valid : ValidMesh roundingMesh := by
  unfold ValidMesh roundingMesh
  decide

theorem roundDouble_eq_of_representable (q : ℚ) (m e : ℤ) (hq : q = (m : ℚ) * 2 ^ e)
    (hm : |m| < 2 ^ 53) (he : -1074 ≤ e) (hmax : |q| < 2 ^ (1024 : ℤ)) :
    roundDouble q = Double.ofRat q := by
  subst hq
  exact roundDouble_of_representable m e hm he hmax

theorem roundDouble_zero : roundDouble 0 = Double.ofRat 0 :=
  roundDouble_eq_of_representable 0 0 0 (by norm_num) (by norm_num) (by norm_num) (by norm_num)

theorem roundDouble_one : roundDouble 1 = Double.ofRat 1 :=
  roundDouble_eq_of_representable 1 1 0 (by norm_num) (by norm_num) (by norm_num) (by norm_num)

theorem roundDouble_four : roundDouble 4 = Double.ofRat 4 :=
  roundDouble_eq_of_representable 4 4 0 (by norm_num) (by norm_num) (by norm_num) (by norm_num)

theorem roundDouble_two_pow_53 : roundDouble (2 ^ 53) = Double.ofRat (2 ^ 53) :=
  roundDouble_eq_of_representable _ (2 ^ 52) 1 (by norm_num) (by norm_num) (by norm_num)
    (by norm_num)

theorem roundDouble_two_pow_53_add_two :
    roundDouble (2 ^ 53 + 2) = Double.ofRat (2 ^ 53 + 2) :=
  roundDouble_eq_of_representable _ (2 ^ 52 + 1) 1 (by norm_num) (by norm_num) (by norm_num)
    (by norm_num)

theorem roundDouble_two_pow_51 : roundDouble (2 ^ 51) = Double.ofRat (2 ^ 51) :=
  roundDouble_eq_of_representable _ (2 ^ 51) 0 (by norm_num) (by norm_num) (by norm_num)
    (by norm_num)

theorem roundDouble_two_pow_51_add_half :
    roundDouble (2 ^ 51 + 1 / 2) = Double.ofRat (2 ^ 51 + 1 / 2) :=
  roundDouble_eq_of_representable _ (2 ^ 52 + 1) (-1) (by norm_num) (by norm_num) (by norm_num)
    (by rw [abs_of_pos (by norm_num)]; norm_num)

theorem nearestDouble_zero : nearestDouble 0 = 0 :=
  nearestDouble_of_representable 0 roundDouble_zero

theorem nearestDouble_one : nearestDouble 1 = 1 :=
  nearestDouble_of_representable 1 roundDouble_one

theorem nearestDouble_four : nearestDouble 4 = 4 :=
  nearestDouble_of_representable 4 roundDouble_four

theorem nearestDouble_two_pow_53 : nearestDouble (2 ^ 53) = 2 ^ 53 :=
  nearestDouble_of_representable _ roundDouble_two_pow_53

theorem nearestDouble_two_pow_53_add_two : nearestDouble (2 ^ 53 + 2) = 2 ^ 53 + 2 :=
  nearestDouble_of_representable _ roundDouble_two_pow_53_add_two

theorem roundingMesh_centroid_zero (ce : Centroid)
    (h : cellCentroid roundingMesh 0 = some ce) :
    ce.coord 0 = Double.ofRat (2 ^ 51) ∧ ce.coord 1 = Double.ofRat 0 := by
  rw [cellCentroid_eq roundingMesh 0 ⟨![0, 1, 1, 1]⟩ ⟨![2 ^ 53, 0, 0]⟩ ⟨![1, 0, 0]⟩
    ⟨![1, 0, 0]⟩ ⟨![1, 0, 0]⟩ rfl rfl rfl rfl rfl] at h
  obtain rfl := Option.some.inj h
  constructor
  · simp only [Matrix.cons_val_zero, nearestDouble_two_pow_53, nearestDouble_one,
      addDouble_ofRat, zero_add, roundDouble_two_pow_53, roundDouble_tie, div4Double_ofRat]
    rw [show ((2 : ℚ) ^ 53 / 4) = 2 ^ 51 by norm_num, roundDouble_two_pow_51]
  · simp only [Matrix.cons_val_one, Matrix.head_cons, nearestDouble_zero, addDouble_ofRat,
      zero_add, roundDouble_zero, div4Double_ofRat, zero_div]

theorem roundingMesh_centroid_one (ce : Centroid)
    (h : cellCentroid roundingMesh 1 = some ce) :
    ce.coord 0 = Double.ofRat (2 ^ 51 + 1 / 2) ∧ ce.coord 1 = Double.ofRat 1 := by
  rw [cellCentroid_eq roundingMesh 1 ⟨![2, 3, 3, 3]⟩ ⟨![2 ^ 53 + 2, 4, 0]⟩ ⟨![0, 0, 0]⟩
    ⟨![0, 0, 0]⟩ ⟨![0, 0, 0]⟩ rfl rfl rfl rfl rfl] at h
  obtain rfl := Option.some.inj h
  constructor
  · simp only [Matrix.cons_val_zero, nearestDouble_two_pow_53_add_two, nearestDouble_zero,
      addDouble_ofRat, zero_add, add_zero, roundDouble_two_pow_53_add_two, div4Double_ofRat]
    rw [show (((2 : ℚ) ^ 53 + 2) / 4) = 2 ^ 51 + 1 / 2 by norm_num,
      roundDouble_two_pow_51_add_half]
  · simp only [Matrix.cons_val_one, Matrix.head_cons, nearestDouble_four, nearestDouble_zero,
      addDouble_ofRat, zero_add, add_zero, roundDouble_four, div4Double_ofRat]
    rw [show ((4 : ℚ) / 4) = 1 by norm_num, roundDouble_one]

theorem roundingMesh_cell_lt (a : Nat) (ca : Centroid)
    (h : cellCentroid roundingMesh a = some ca) : a = 0 ∨ a = 1 := by
  rcases Nat.lt_or_ge a 2 with ha | ha
  · omega
  · have hcd : roundingMesh.c_cellData[a]? = none :=
      List.getElem?_eq_none (by simp [roundingMesh]; omega)
    simp [cellCentroid, hcd] at h

theorem roundingMesh_distinctX (a b : Nat) (ca cb : Centroid)
    (ha : cellCentroid roundingMesh a = some ca) (hb : cellCentroid roundingMesh b = some cb)
    (h : ca.coord 0 = cb.coord 0) : a = b := by
  rcases roundingMesh_cell_lt a ca ha with rfl | rfl <;>
    rcases roundingMesh_cell_lt b cb hb with rfl | rfl
  · rfl
  · rw [(roundingMesh_centroid_zero ca ha).1, (roundingMesh_centroid_one cb hb).1] at h
    exact absurd (ofRat_injective h) (by norm_num)
  · rw [(roundingMesh_centroid_one ca ha).1, (roundingMesh_centroid_zero cb hb).1] at h
    exact absurd (ofRat_injective h) (by norm_num)
  · rfl

theorem roundingMesh_distinctY (a b : Nat) (ca cb : Centroid)
    (ha : cellCentroid roundingMesh a = some ca) (hb : cellCentroid roundingMesh b = some cb)
    (h : ca.coord 1 = cb.coord 1) : a = b := by
  rcases roundingMesh_cell_lt a ca ha with rfl | rfl <;>
    rcases roundingMesh_cell_lt b cb hb with rfl | rfl
  · rfl
  · rw [(roundingMesh_centroid_zero ca ha).2, (roundingMesh_centroid_one cb hb).2] at h
    exact absurd (ofRat_injective h) (by norm_num)
  · rw [(roundingMesh_centroid_one ca ha).2, (roundingMesh_centroid_zero cb hb).2] at h
    exact absurd (ofRat_injective h) (by norm_num)
  · rfl

theorem roundingMesh_meshCentroids :
    ∃ c0 c1, meshCentroids roundingMesh = [c0, c1] ∧
      cellCentroid roundingMesh 0 = some c0 ∧ cellCentroid roundingMesh 1 = some c1 := by
  obtain ⟨c0, h0⟩ := cellCentroid_isSome roundingMesh roundingMesh_valid 0 (by decide)
  obtain ⟨c1, h1⟩ := cellCentroid_isSome roundingMesh roundingMesh_valid 1 (by decide)
  refine ⟨c0, c1, ?_, h0, h1⟩
  have hr : List.range roundingMesh.c_numCells = [0, 1] := rfl
  simp [meshCentroids, hr, h0, h1]

theorem roundingMesh_rankX (c0 c1 : Centroid) (h0 : cellCentroid roundingMesh 0 = some c0)
    (h1 : cellCentroid roundingMesh 1 = some c1) :
    rankX roundingMesh c0 = 0 ∧ rankX roundingMesh c1 = 1 := by
  obtain ⟨d0, d1, hm, k0, k1⟩ := roundingMesh_meshCentroids
  obtain rfl : d0 = c0 := Option.some.inj (k0.symm.trans h0)
  obtain rfl : d1 = c1 := Option.some.inj (k1.symm.trans h1)
  have x0 := (roundingMesh_centroid_zero d0 h0).1
  have x1 := (roundingMesh_centroid_one d1 h1).1
  constructor
  · simp only [rankX, hm, List.countP_cons, List.countP_nil, x0, x1, ofRat_lt_ofRat]
    norm_num
  · simp only [rankX, hm, List.countP_cons, List.countP_nil, x0, x1, ofRat_lt_ofRat]
    norm_num

theorem roundingMesh_output (sort : SortFn) (hs : SortContract sort) :
    ∃ st, partitionMesh sort 2 1 roundingMesh [0, 0] = some st ∧
      st.partitionVector.getD 0 0 = 0 ∧ st.partitionVector.getD 1 0 = 1 := by
  refine ⟨_, partitionMesh_eq sort hs 2 1 roundingMesh [0, 0] roundingMesh_valid (by decide)
    (by decide) (by decide) (by decide) rfl, ?_, ?_⟩
  · obtain ⟨i, j, ce, _, hj, hcen, hval, h1, h2, _, _⟩ :=
      cell_rank_assignment sort hs 2 1 roundingMesh [0, 0] roundingMesh_valid (by decide)
        (by decide) (by decide) rfl roundingMesh_distinctX roundingMesh_distinctY 0 (by decide)
    obtain ⟨c1, hc1⟩ := cellCentroid_isSome roundingMesh roundingMesh_valid 1 (by decide)
    rw [(roundingMesh_rankX ce c1 hcen hc1).1] at h1 h2
    have hN : roundingMesh.c_numCells = 2 := rfl
    simp only [hN, chunkStart] at h1 h2
    simp only []
    rw [hval]
    norm_num at h1 h2
    omega
  · obtain ⟨i, j, ce, _, hj, hcen, hval, h1, h2, _, _⟩ :=
      cell_rank_assignment sort hs 2 1 roundingMesh [0, 0] roundingMesh_valid (by decide)
        (by decide) (by decide) rfl roundingMesh_distinctX roundingMesh_distinctY 1 (by decide)
    obtain ⟨c0, hc0⟩ := cellCentroid_isSome roundingMesh roundingMesh_valid 0 (by decide)
    rw [(roundingMesh_rankX c0 ce hc0 hcen).2] at h1 h2
    have hN : roundingMesh.c_numCells = 2 := rfl
    simp only [hN, chunkStart] at h1 h2
    simp only []
    rw [hval]
    norm_num at h1 h2
    omega

/-- C14 (amended): for every valid mesh whose centroid X-coordinates, as the program computes
them in `double` (`cellCentroid`), are pairwise distinct and whose computed centroid
Y-coordinates are pairwise distinct, and positive partition counts (product within `int`),
with `bx = splitIntoChunks numCells numPartitionsX` and, for column `i`,
`by = splitIntoChunks (bx[i+1] - bx[i]) numPartitionsY`: the id of cell `c` lies in X-column
`i` iff the number of cells with strictly smaller computed centroid X lies in
`[bx[i], bx[i+1])`, and in row `j` of that column iff moreover the number of cells of that
column with strictly smaller computed centroid Y lies in `[by[j], by[j+1])`; and every sorting
routine meeting the contract of `std::sort` yields the same output vector. -/
theorem partitionMesh_rank_reference (sort : SortFn) (hs : SortContract sort)
    (numPartitionsX numPartitionsY : Nat) (serialMesh : SerialMesh)
    (partitionVector : List Nat) (hm : ValidMesh serialMesh) (hpx : 0 < numPartitionsX)
    (hpy : 0 < numPartitionsY) (hov : numPartitionsX * numPartitionsY ≤ INT_MAX)
    (hpv : partitionVector.length = serialMesh.c_numCells)
    (hX : ∀ a b ca cb, cellCentroid serialMesh a = some ca →
      cellCentroid serialMesh b = some cb → ca.coord 0 = cb.coord 0 → a = b)
    (hY : ∀ a b ca cb, cellCentroid serialMesh a = some ca →
      cellCentroid serialMesh b = some cb → ca.coord 1 = cb.coord 1 → a = b) :
    ∃ st bx, partitionMesh sort numPartitionsX numPartitionsY serialMesh partitionVector
        = some st ∧
      splitIntoChunks serialMesh.c_numCells numPartitionsX = some bx ∧
      (∀ c, c < serialMesh.c_numCells →
        ∃ ce, cellCentroid serialMesh c = some ce ∧ ∀ i, i < numPartitionsX →
          (st.partitionVector.getD c 0 / numPartitionsY = i ↔
            inRankColumn serialMesh bx i ce = true) ∧
          ∃ rowBx, splitIntoChunks (bx.getD (i + 1) 0 - bx.getD i 0) numPartitionsY
              = some rowBx ∧
            ∀ j, j < numPartitionsY →
              (st.partitionVector.getD c 0 / numPartitionsY = i ∧
                  st.partitionVector.getD c 0 % numPartitionsY = j ↔
                inRankColumn serialMesh bx i ce = true ∧
                  inRankRow serialMesh bx rowBx i j ce = true)) ∧
      (∀ sort2, SortContract sort2 →
        ∃ st2, partitionMesh sort2 numPartitionsX numPartitionsY serialMesh partitionVector
            = some st2 ∧
          st2.partitionVector = st.partitionVector) := by
  obtain ⟨hpxi, hpyi⟩ := le_INT_MAX_of_product _ _ hpx hpy hov
  refine ⟨_, _,
    partitionMesh_eq sort hs _ _ serialMesh partitionVector hm hpx hpy hpxi hpyi hpv,
    splitIntoChunks_eq _ _ hm.1 (int_succ_lt_uint64 _ hpxi), fun c hc => ?_,
    fun sort2 hs2 =>
      ⟨_, partitionMesh_eq sort2 hs2 _ _ serialMesh partitionVector hm hpx hpy hpxi hpyi hpv,
        assignment_sort_independent sort sort2 hs hs2 _ _ serialMesh partitionVector hm hpx
          hpy hov hpv hX hY⟩⟩
  obtain ⟨ce, hcen, hall⟩ := rank_reference sort hs _ _ serialMesh partitionVector hm hpx hpy
    hov hpv hX hY c hc
  refine ⟨ce, hcen, fun i hi => ⟨(hall i hi).1, ?_⟩⟩
  have hcle : chunkStart serialMesh.c_numCells numPartitionsX (i + 1) ≤
      serialMesh.c_numCells := chunkStart_le_size _ _ hpx (by omega)
  have hsz : chunkStart serialMesh.c_numCells numPartitionsX (i + 1) -
      chunkStart serialMesh.c_numCells numPartitionsX i < UINT64_MOD := by
    have := hm.1; omega
  rw [chunkBounds_getD _ _ (Nat.le_of_lt hi), chunkBounds_getD _ _ hi]
  exact ⟨_, splitIntoChunks_eq _ _ hsz (int_succ_lt_uint64 _ hpyi), (hall i hi).2⟩

theorem partitionMesh_rank_reference_witness :
    ∃ st bx, partitionMesh insertionSort 2 1 roundingMesh [0, 0] = some st ∧
      splitIntoChunks roundingMesh.c_numCells 2 = some bx ∧
      (∀ c, c < roundingMesh.c_numCells →
        ∃ ce, cellCentroid roundingMesh c = some ce ∧ ∀ i, i < 2 →
          (st.partitionVector.getD c 0 / 1 = i ↔ inRankColumn roundingMesh bx i ce = true) ∧
          ∃ rowBx, splitIntoChunks (bx.getD (i + 1) 0 - bx.getD i 0) 1 = some rowBx ∧
            ∀ j, j < 1 →
              (st.partitionVector.getD c 0 / 1 = i ∧ st.partitionVector.getD c 0 % 1 = j ↔
                inRankColumn roundingMesh bx i ce = true ∧
                  inRankRow roundingMesh bx rowBx i j ce = true)) ∧
      (∀ sort2, SortContract sort2 →
        ∃ st2, partitionMesh sort2 2 1 roundingMesh [0, 0] = some st2 ∧
          st2.partitionVector = st.partitionVector) :=
  partitionMesh_rank_reference insertionSort insertionSort_contract 2 1 roundingMesh
    [0, 0] roundingMesh_valid (by decide) (by decide) (by decide) rfl
    roundingMesh_distinctX roundingMesh_distinctY

/-! ### Diagnostic lines -/

theorem mem_allOutput (px py : Nat) (xs : List Centroid) (n : Nat) (t : Nat × Nat × Nat) :
    t ∈ allOutput px py xs n ↔
      ∃ i j, i < n ∧ j < py ∧ partitionId i py j < 100 ∧ t = (i, j, rowSize px py xs i j) := by
  constructor
  · intro ht
    obtain ⟨l, hl, ht⟩ := List.mem_flatten.mp ht
    obtain ⟨i, hi, rfl⟩ := List.mem_map.mp hl
    obtain ⟨l2, hl2, ht⟩ := List.mem_flatten.mp ht
    obtain ⟨j, hj, rfl⟩ := List.mem_map.mp hl2
    unfold blockOutput at ht
    split_ifs at ht with hlt
    · exact ⟨i, j, List.mem_range.mp hi, List.mem_range.mp hj, hlt, List.mem_singleton.mp ht⟩
    · exact absurd ht (List.not_mem_nil _)
  · rintro ⟨i, j, hi, hj, hlt, rfl⟩
    refine List.mem_flatten.mpr ⟨columnOutput px py xs i py,
      List.mem_map.mpr ⟨i, List.mem_range.mpr hi, rfl⟩, ?_⟩
    refine List.mem_flatten.mpr ⟨blockOutput px py xs i j,
      List.mem_map.mpr ⟨j, List.mem_range.mpr hj, rfl⟩, ?_⟩
    unfold blockOutput
    rw [if_pos hlt]
    exact List.mem_singleton.mpr rfl

theorem setPartition_loop_output_free (centroids : List Centroid) (indexBegin part : Nat)
    (l : List Nat) (s t : AssignState) (hpv : s.partitionVector = t.partitionVector)
    (hw : s.writes = t.writes) :
    (l.foldlM (setPartitionBody centroids indexBegin part) s).map
        (fun r => (r.partitionVector, r.writes)) =
      (l.foldlM (setPartitionBody centroids indexBegin part) t).map
        (fun r => (r.partitionVector, r.writes)) := by
  induction l generalizing s t with
  | nil => simp [hpv, hw]
  | cons k tl ih =>
    rw [List.foldlM_cons, List.foldlM_cons]
    cases hc : centroids[wrap64 (indexBegin + k)]? with
    | none => simp [setPartitionBody, hc]
    | some c =>
      cases hst : storeAt t.partitionVector c.cell part with
      | none => simp [setPartitionBody, hc, hpv, hst]
      | some v =>
        simp only [setPartitionBody, hc, hpv, hst, hw, Option.bind_eq_bind, Option.some_bind,
          Option.pure_def]
        exact ih _ _ rfl rfl

theorem setPartitionsBody_output_free (numPartitionsY : Nat) (centroids : List Centroid)
    (chunksX : List Nat) (chunksY : List (List Nat)) (i j : Nat) (s : AssignState)
    (o : List (Nat × Nat × Nat)) :
    (setPartitionsBody numPartitionsY centroids chunksX chunksY i
        { s with output := o } j).map (fun r => (r.partitionVector, r.writes)) =
      (setPartitionsBody numPartitionsY centroids chunksX chunksY i s j).map
        (fun r => (r.partitionVector, r.writes)) := by
  unfold setPartitionsBody
  cases h1 : chunksY[i]? with
  | none => simp
  | some chunks =>
    simp only [Option.bind_eq_bind, Option.some_bind]
    cases h2 : chunks[j + 1]? with
    | none => simp
    | some hi =>
      simp only [Option.some_bind]
      cases h3 : chunks[j]? with
      | none => simp
      | some lo =>
        simp only [Option.some_bind]
        cases h4 : chunksX[i]? with
        | none => simp
        | some xb =>
          simp only [Option.some_bind]
          apply setPartition_loop_output_free
          · split_ifs <;> rfl
          · split_ifs <;> rfl

theorem output_line_iff (sort : SortFn) (hs : SortContract sort) (px py : Nat)
    (m : SerialMesh) (pv : List Nat) (hm : ValidMesh m) (hpx : 0 < px) (hpy : 0 < py)
    (hov : px * py ≤ INT_MAX) (hpv : pv.length = m.c_numCells) :
    ∃ st, partitionMesh sort px py m pv = some st ∧
      (∀ i j n, (i, j, n) ∈ st.output ↔
        i < px ∧ j < py ∧ i * py + j < 100 ∧ n = st.partitionVector.count (i * py + j)) ∧
      st.partitionVector = applyWrites pv st.writes := by
  obtain ⟨hpxi, hpyi⟩ := le_INT_MAX_of_product _ _ hpx hpy hov
  refine ⟨_, partitionMesh_eq sort hs _ _ m pv hm hpx hpy hpxi hpyi hpv, fun i j n => ?_, rfl⟩
  have hcount : ∀ i j, i < px → j < py →
      (applyWrites pv (allWrites sort px py (xSorted sort m) px)).count (i * py + j) =
        rowSize px py (xSorted sort m) i j := by
    intro i j hi hj
    have := assignment_count sort hs px py m pv hm hpx hpy hov hpv (i * py + j)
      (part_lt px py hi hj)
    rwa [part_div py hj, part_mod py hj] at this
  simp only [mem_allOutput]
  constructor
  · rintro ⟨i', j', hi, hj, hlt, heq⟩
    obtain ⟨rfl, rfl, rfl⟩ : i = i' ∧ j = j' ∧ n = rowSize px py (xSorted sort m) i' j' := by
      simpa using heq
    rw [partitionId_eq_of_product px py hov hi hj] at hlt
    exact ⟨hi, hj, hlt, (hcount i j hi hj).symm⟩
  · rintro ⟨hi, hj, hlt, rfl⟩
    refine ⟨i, j, hi, hj, ?_, ?_⟩
    · rwa [partitionId_eq_of_product px py hov hi hj]
    · rw [hcount i j hi hj]

/-- C16 (amended): for every valid mesh and positive partition counts (product within
`int`), `partitionMesh` prints a line for partition `(i, j)` exactly when its partition id
`i * numPartitionsY + j` is below 100, whatever its number of cells, and the line reports
that number; the assignment vector is the input vector updated by the assignments of the
trace, and what has been printed never changes the vector or the trace that the body of the
loops produces. -/
theorem partitionMesh_diagnostics (sort : SortFn) (hs : SortContract sort)
    (numPartitionsX numPartitionsY : Nat) (serialMesh : SerialMesh)
    (partitionVector : List Nat) (hm : ValidMesh serialMesh) (hpx : 0 < numPartitionsX)
    (hpy : 0 < numPartitionsY) (hov : numPartitionsX * numPartitionsY ≤ INT_MAX)
    (hpv : partitionVector.length = serialMesh.c_numCells) :
    ∃ st, partitionMesh sort numPartitionsX numPartitionsY serialMesh partitionVector = some st ∧
      (∀ i j n, (i, j, n) ∈ st.output ↔
        i < numPartitionsX ∧ j < numPartitionsY ∧ i * numPartitionsY + j < 100 ∧
          n = st.partitionVector.count (i * numPartitionsY + j)) ∧
      st.partitionVector = applyWrites partitionVector st.writes ∧
      ∀ (i j : Nat) (s : AssignState) (o : List (Nat × Nat × Nat)),
        (setPartitionsBody numPartitionsY st.centroids st.chunksX st.chunksY i
            { s with output := o } j).map (fun r => (r.partitionVector, r.writes)) =
          (setPartitionsBody numPartitionsY st.centroids st.chunksX st.chunksY i s j).map
            (fun r => (r.partitionVector, r.writes)) := by
  obtain ⟨st, hst, hout, hvec⟩ := output_line_iff sort hs numPartitionsX numPartitionsY
    serialMesh partitionVector hm hpx hpy hov hpv
  exact ⟨st, hst, hout, hvec, fun i j s o =>
    setPartitionsBody_output_free numPartitionsY st.centroids st.chunksX st.chunksY i j s o⟩

theorem partitionMesh_diagnostics_witness :
    ∃ st, partitionMesh insertionSort 2 2 cubeMesh (List.replicate 8 0) = some st ∧
      (∀ i j n, (i, j, n) ∈ st.output ↔
        i < 2 ∧ j < 2 ∧ i * 2 + j < 100 ∧ n = st.partitionVector.count (i * 2 + j)) ∧
      st.partitionVector = applyWrites (List.replicate 8 0) st.writes ∧
      ∀ (i j : Nat) (s : AssignState) (o : List (Nat × Nat × Nat)),
        (setPartitionsBody 2 st.centroids st.chunksX st.chunksY i
            { s with output := o } j).map (fun r => (r.partitionVector, r.writes)) =
          (setPartitionsBody 2 st.centroids st.chunksX st.chunksY i s j).map
            (fun r => (r.partitionVector, r.writes)) :=
  partitionMesh_diagnostics insertionSort insertionSort_contract 2 2 cubeMesh
    (List.replicate 8 0) cubeMesh_valid (by decide) (by decide) (by decide) (by decide)

/-- C16 (counterexample): on the 10-cell mesh with 101 x 1 partitions, partition `(100, 0)`
has fewer than 100 cells, yet no line is printed for it. -/
theorem partitionMesh_no_line_for_small_partition :
    ∃ st, partitionMesh insertionSort 101 1 lineMesh (List.replicate 10 0) = some st ∧
      st.partitionVector.count (100 * 1 + 0) < 100 ∧
      ∀ n, (100, 0, n) ∉ st.output := by
  obtain ⟨st, hst, hout, hpv⟩ := output_line_iff insertionSort insertionSort_contract 101 1
    lineMesh (List.replicate 10 0) lineMesh_valid (by decide) (by decide) (by decide)
    (by decide)
  refine ⟨st, hst, ?_, fun n hn => ?_⟩
  · have hlen : st.partitionVector.length = 10 := by
      rw [hpv, applyWrites_length]; rfl
    have := List.count_le_length (100 * 1 + 0) st.partitionVector
    omega
  · have := ((hout 100 0 n).mp hn).2.2.1
    omega

/-! ### Computed centroids and exact means -/

theorem roundingMesh_meanCoord :
    meanCoord roundingMesh 0 0 = some ((2 ^ 53 + 1 + 1 + 1) / 4) ∧
    meanCoord roundingMesh 1 0 = some ((2 ^ 53 + 2 + 0 + 0 + 0) / 4) ∧
    meanCoord roundingMesh 0 1 = some ((0 + 0 + 0 + 0) / 4) ∧
    meanCoord roundingMesh 1 1 = some ((4 + 0 + 0 + 0) / 4) :=
  ⟨rfl, rfl, rfl, rfl⟩

theorem roundingMesh_representable :
    ∀ nd ∈ roundingMesh.c_nodeData, ∀ d : Fin 3,
      roundDouble (nd.coords d) = Double.ofRat (nd.coords d) := by
  intro nd hnd d
  simp only [roundingMesh, List.mem_cons, List.mem_singleton, List.not_mem_nil, or_false]
    at hnd
  rcases hnd with rfl | rfl | rfl | rfl <;> fin_cases d <;>
    first
      | exact roundDouble_zero
      | exact roundDouble_one
      | exact roundDouble_four
      | exact roundDouble_two_pow_53
      | exact roundDouble_two_pow_53_add_two

theorem roundingMesh_meanRankX : meanRankX roundingMesh 0 = 1 := by
  have hr : List.range roundingMesh.c_numCells = [0, 1] := rfl
  simp only [meanRankX, hr, List.countP_cons, List.countP_nil, roundingMesh_meanCoord.1,
    roundingMesh_meanCoord.2.1]
  norm_num

theorem roundingMesh_chunks : splitIntoChunks roundingMesh.c_numCells 2 = some [0, 1, 2] := by
  decide

theorem roundingMesh_mean_distinct (d : Fin 3) (hd : d = 0 ∨ d = 1) (a b : Nat)
    (ha : a < roundingMesh.c_numCells) (hb : b < roundingMesh.c_numCells)
    (h : meanCoord roundingMesh a d = meanCoord roundingMesh b d) : a = b := by
  have hN : roundingMesh.c_numCells = 2 := rfl
  rw [hN] at ha hb
  obtain ⟨m00, m10, m01, m11⟩ := roundingMesh_meanCoord
  have ha2 : a = 0 ∨ a = 1 := by omega
  have hb2 : b = 0 ∨ b = 1 := by omega
  rcases hd with rfl | rfl <;> rcases ha2 with rfl | rfl <;> rcases hb2 with rfl | rfl <;>
    first
      | rfl
      | (simp only [m00, m10, m01, m11, Option.some.injEq] at h
         norm_num at h)

/-- C15 (amended): for every valid mesh, the loop "Put centroids into vector" returns a vector
with one centroid per cell, in cell-index order: entry `c` has `cell = c` and, for each axis
`d`, `coord[d]` is the `double` obtained by adding coordinate `d` of the 4 bounding nodes of
cell `c` to `0.0`, in order, every sum rounded to `double`, and dividing by `4.0`, rounded;
it is the exact sum divided by 4 when the four coordinates are `double` values and neither a
partial sum nor the quotient is changed by the rounding; and this is the vector that
`partitionMesh` then sorts by X and, column by column, by Y. -/
theorem partitionMesh_centroid_extraction (serialMesh : SerialMesh)
    (hm : ValidMesh serialMesh) :
    ∃ cents, (List.range serialMesh.c_numCells).mapM (cellCentroid serialMesh) = some cents ∧
      cents.length = serialMesh.c_numCells ∧
      (∀ c, c < serialMesh.c_numCells →
        ∃ ce cd n0 n1 n2 n3, cents[c]? = some ce ∧ ce.cell = c ∧
          serialMesh.c_cellData[c]? = some cd ∧
          serialMesh.c_nodeData[cd.boundingNodes 0]? = some n0 ∧
          serialMesh.c_nodeData[cd.boundingNodes 1]? = some n1 ∧
          serialMesh.c_nodeData[cd.boundingNodes 2]? = some n2 ∧
          serialMesh.c_nodeData[cd.boundingNodes 3]? = some n3 ∧
          ∀ d : Fin 3,
            ce.coord d = div4Double (addDouble (addDouble (addDouble (addDouble
              (Double.ofRat 0) (nearestDouble (n0.coords d))) (nearestDouble (n1.coords d)))
              (nearestDouble (n2.coords d))) (nearestDouble (n3.coords d))) ∧
            (roundDouble (n0.coords d) = Double.ofRat (n0.coords d) →
              roundDouble (n1.coords d) = Double.ofRat (n1.coords d) →
              roundDouble (n2.coords d) = Double.ofRat (n2.coords d) →
              roundDouble (n3.coords d) = Double.ofRat (n3.coords d) →
              roundDouble (n0.coords d + n1.coords d) =
                Double.ofRat (n0.coords d + n1.coords d) →
              roundDouble (n0.coords d + n1.coords d + n2.coords d) =
                Double.ofRat (n0.coords d + n1.coords d + n2.coords d) →
              roundDouble (n0.coords d + n1.coords d + n2.coords d + n3.coords d) =
                Double.ofRat (n0.coords d + n1.coords d + n2.coords d + n3.coords d) →
              roundDouble ((n0.coords d + n1.coords d + n2.coords d + n3.coords d) / 4) =
                Double.ofRat
                  ((n0.coords d + n1.coords d + n2.coords d + n3.coords d) / 4) →
              ce.coord d = Double.ofRat
                ((n0.coords d + n1.coords d + n2.coords d + n3.coords d) / 4))) ∧
      (∀ (sort : SortFn) (numPartitionsX numPartitionsY : Nat) (partitionVector : List Nat),
        SortContract sort → 0 < numPartitionsX → 0 < numPartitionsY →
        numPartitionsX ≤ INT_MAX → numPartitionsY ≤ INT_MAX →
        partitionVector.length = serialMesh.c_numCells →
        ∃ st, partitionMesh sort numPartitionsX numPartitionsY serialMesh partitionVector
            = some st ∧
          st.centroids = sortedColumns sort numPartitionsX (sort compareX cents)
            numPartitionsX) := by
  refine ⟨meshCentroids serialMesh, mapM_cellCentroid serialMesh hm,
    meshCentroids_length serialMesh, fun c hc => ?_,
    fun sort px py pv hs hpx hpy hpxi hpyi hpv =>
      ⟨_, partitionMesh_eq sort hs px py serialMesh pv hm hpx hpy hpxi hpyi hpv, rfl⟩⟩
  obtain ⟨_, hlen, hnodes⟩ := hm
  have hc2 : c < serialMesh.c_cellData.length := by omega
  obtain ⟨cd, hcd⟩ : ∃ cd, serialMesh.c_cellData[c]? = some cd :=
    ⟨_, List.getElem?_eq_getElem hc2⟩
  have hmem : cd ∈ serialMesh.c_cellData := List.mem_iff_getElem?.mpr ⟨c, hcd⟩
  have hn : ∀ v : Fin 4, ∃ nd, serialMesh.c_nodeData[cd.boundingNodes v]? = some nd :=
    fun v => ⟨_, List.getElem?_eq_getElem (hnodes cd hmem v)⟩
  obtain ⟨n0, h0⟩ := hn 0
  obtain ⟨n1, h1⟩ := hn 1
  obtain ⟨n2, h2⟩ := hn 2
  obtain ⟨n3, h3⟩ := hn 3
  have hce := cellCentroid_eq serialMesh c cd n0 n1 n2 n3 hcd h0 h1 h2 h3
  refine ⟨{ cell := c, coord := fun d => div4Double (addDouble (addDouble (addDouble (addDouble
      (Double.ofRat 0) (nearestDouble (n0.coords d))) (nearestDouble (n1.coords d)))
      (nearestDouble (n2.coords d))) (nearestDouble (n3.coords d))) },
    cd, n0, n1, n2, n3, ?_, rfl, hcd, h0, h1, h2, h3, fun d => ⟨rfl, ?_⟩⟩
  · simp only [meshCentroids, List.getElem?_map, List.getElem?_range hc, Option.map_some', hce,
      Option.getD_some]
  · intro r0 r1 r2 r3 e1 e2 e3 e4
    simp only [nearestDouble_of_representable _ r0, nearestDouble_of_representable _ r1,
      nearestDouble_of_representable _ r2, nearestDouble_of_representable _ r3,
      addDouble_ofRat, zero_add, r0, e1, e2, e3, div4Double_ofRat, e4]

theorem partitionMesh_centroid_extraction_witness :
    ∃ cents, (List.range cubeMesh.c_numCells).mapM (cellCentroid cubeMesh) = some cents ∧
      cents.length = cubeMesh.c_numCells ∧
      (∀ c, c < cubeMesh.c_numCells →
        ∃ ce cd n0 n1 n2 n3, cents[c]? = some ce ∧ ce.cell = c ∧
          cubeMesh.c_cellData[c]? = some cd ∧
          cubeMesh.c_nodeData[cd.boundingNodes 0]? = some n0 ∧
          cubeMesh.c_nodeData[cd.boundingNodes 1]? = some n1 ∧
          cubeMesh.c_nodeData[cd.boundingNodes 2]? = some n2 ∧
          cubeMesh.c_nodeData[cd.boundingNodes 3]? = some n3 ∧
          ∀ d : Fin 3,
            ce.coord d = div4Double (addDouble (addDouble (addDouble (addDouble
              (Double.ofRat 0) (nearestDouble (n0.coords d))) (nearestDouble (n1.coords d)))
              (nearestDouble (n2.coords d))) (nearestDouble (n3.coords d))) ∧
            (roundDouble (n0.coords d) = Double.ofRat (n0.coords d) →
              roundDouble (n1.coords d) = Double.ofRat (n1.coords d) →
              roundDouble (n2.coords d) = Double.ofRat (n2.coords d) →
              roundDouble (n3.coords d) = Double.ofRat (n3.coords d) →
              roundDouble (n0.coords d + n1.coords d) =
                Double.ofRat (n0.coords d + n1.coords d) →
              roundDouble (n0.coords d + n1.coords d + n2.coords d) =
                Double.ofRat (n0.coords d + n1.coords d + n2.coords d) →
              roundDouble (n0.coords d + n1.coords d + n2.coords d + n3.coords d) =
                Double.ofRat (n0.coords d + n1.coords d + n2.coords d + n3.coords d) →
              roundDouble ((n0.coords d + n1.coords d + n2.coords d + n3.coords d) / 4) =
                Double.ofRat
                  ((n0.coords d + n1.coords d + n2.coords d + n3.coords d) / 4) →
              ce.coord d = Double.ofRat
                ((n0.coords d + n1.coords d + n2.coords d + n3.coords d) / 4))) ∧
      (∀ (sort : SortFn) (numPartitionsX numPartitionsY : Nat) (partitionVector : List Nat),
        SortContract sort → 0 < numPartitionsX → 0 < numPartitionsY →
        numPartitionsX ≤ INT_MAX → numPartitionsY ≤ INT_MAX →
        partitionVector.length = cubeMesh.c_numCells →
        ∃ st, partitionMesh sort numPartitionsX numPartitionsY cubeMesh partitionVector
            = some st ∧
          st.centroids = sortedColumns sort numPartitionsX (sort compareX cents)
            numPartitionsX) :=
  partitionMesh_centroid_extraction cubeMesh cubeMesh_valid

/-- C15 (counterexample): on the valid mesh `roundingMesh`, whose coordinates are all exactly
represented, cell 0 has bounding nodes of X-coordinates `2^53, 1, 1, 1`; entry 0 of the
centroid vector holds the X-coordinate `2^51`, not the sum divided by 4, `(2^53 + 3) / 4`:
each of the `double` sums `2^53 + 1` rounds to `2^53`. -/
theorem centroid_differs_from_exact_mean :
    ValidMesh roundingMesh ∧
    (∀ nd ∈ roundingMesh.c_nodeData, ∀ d : Fin 3,
      roundDouble (nd.coords d) = Double.ofRat (nd.coords d)) ∧
    ∃ cents ce, (List.range roundingMesh.c_numCells).mapM (cellCentroid roundingMesh)
        = some cents ∧
      cents[0]? = some ce ∧ ce.coord 0 = Double.ofRat (2 ^ 51) ∧
      meanCoord roundingMesh 0 0 = some ((2 ^ 53 + 1 + 1 + 1) / 4) ∧
      ce.coord 0 ≠ Double.ofRat ((2 ^ 53 + 1 + 1 + 1) / 4) := by
  obtain ⟨c0, hc0⟩ := cellCentroid_isSome roundingMesh roundingMesh_valid 0 (by decide)
  have hx := (roundingMesh_centroid_zero c0 hc0).1
  refine ⟨roundingMesh_valid, roundingMesh_representable, meshCentroids roundingMesh, c0,
    mapM_cellCentroid roundingMesh roundingMesh_valid, ?_, hx, roundingMesh_meanCoord.1, ?_⟩
  · rw [meshCentroids_getElem? roundingMesh roundingMesh_valid 0 (by decide), hc0]
  · rw [hx]
    intro h
    exact absurd (ofRat_injective h) (by norm_num)

/-- C5 (counterexample): on the mesh `roundingMesh` (valid, every coordinate exactly
represented) with 2 x 1 partitions, every sorting routine meeting the contract puts cell 0 in
X-column 0 and cell 1 in X-column 1, yet the arithmetic mean of the X-coordinates of cell 0,
`(2^53 + 3) / 4`, is larger than that of cell 1, `(2^53 + 2) / 4`. -/
theorem spatial_coherence_fails_for_exact_means :
    ValidMesh roundingMesh ∧
    (∀ nd ∈ roundingMesh.c_nodeData, ∀ d : Fin 3,
      roundDouble (nd.coords d) = Double.ofRat (nd.coords d)) ∧
    ∃ st x0 x1, partitionMesh insertionSort 2 1 roundingMesh [0, 0] = some st ∧
      st.partitionVector.getD 0 0 / 1 < st.partitionVector.getD 1 0 / 1 ∧
      meanCoord roundingMesh 0 0 = some x0 ∧ meanCoord roundingMesh 1 0 = some x1 ∧
      ¬ x0 ≤ x1 ∧
      ∀ sort2, SortContract sort2 →
        ∃ st2, partitionMesh sort2 2 1 roundingMesh [0, 0] = some st2 ∧
          st2.partitionVector.getD 0 0 / 1 < st2.partitionVector.getD 1 0 / 1 := by
  obtain ⟨st, hst, h0, h1⟩ := roundingMesh_output insertionSort insertionSort_contract
  refine ⟨roundingMesh_valid, roundingMesh_representable, st, _, _, hst, ?_,
    roundingMesh_meanCoord.1, roundingMesh_meanCoord.2.1, by norm_num, fun sort2 hs2 => ?_⟩
  · rw [h0, h1]; decide
  · obtain ⟨st2, hst2, k0, k1⟩ := roundingMesh_output sort2 hs2
    exact ⟨st2, hst2, by rw [k0, k1]; decide⟩

/-- C14 (counterexample): on the mesh `roundingMesh` with 2 x 1 partitions the arithmetic
means of the cells are pairwise distinct in X and in Y and `bx = {0, 1, 2}`; every sorting
routine meeting the contract puts cell 0 in X-column 0, yet the number of cells whose mean X
is strictly smaller than that of cell 0 is 1, which is not in `[bx[0], bx[1]) = [0, 1)`. -/
theorem rank_rule_fails_for_exact_means :
    ValidMesh roundingMesh ∧
    (∀ a b, a < roundingMesh.c_numCells → b < roundingMesh.c_numCells →
      meanCoord roundingMesh a 0 = meanCoord roundingMesh b 0 → a = b) ∧
    (∀ a b, a < roundingMesh.c_numCells → b < roundingMesh.c_numCells →
      meanCoord roundingMesh a 1 = meanCoord roundingMesh b 1 → a = b) ∧
    ∃ st bx, partitionMesh insertionSort 2 1 roundingMesh [0, 0] = some st ∧
      splitIntoChunks roundingMesh.c_numCells 2 = some bx ∧
      st.partitionVector.getD 0 0 / 1 = 0 ∧
      ¬ (bx.getD 0 0 ≤ meanRankX roundingMesh 0 ∧ meanRankX roundingMesh 0 < bx.getD (0 + 1) 0) ∧
      ∀ sort2, SortContract sort2 →
        ∃ st2, partitionMesh sort2 2 1 roundingMesh [0, 0] = some st2 ∧
          st2.partitionVector.getD 0 0 / 1 = 0 := by
  obtain ⟨st, hst, h0, _⟩ := roundingMesh_output insertionSort insertionSort_contract
  refine ⟨roundingMesh_valid, roundingMesh_mean_distinct 0 (Or.inl rfl),
    roundingMesh_mean_distinct 1 (Or.inr rfl), st, _, hst, roundingMesh_chunks, ?_, ?_,
    fun sort2 hs2 => ?_⟩
  · rw [h0]
  · rw [roundingMesh_meanRankX]; decide
  · obtain ⟨st2, hst2, k0, _⟩ := roundingMesh_output sort2 hs2
    exact ⟨st2, hst2, by rw [k0]⟩

end PartitionColumns
